import Mathlib

/-!
Verification of the two concurrency primitives of this repository:
the asynchronous queue (src/lib/queue.ts) and the reader-writer-upgrade
lock (src/lib/readerwriterlock.ts).  Each data structure is shallowly
embedded: its private fields become record fields, its methods become
pure state-transforming functions, and the single-threaded cooperative
execution model of the runtime becomes sequential application of those
functions over a list of actions.
-/

namespace Prex

/-! ## AsyncQueue (src/lib/queue.ts)

The class holds two private fields: an array of already-resolved
promises and an array of pending resolvers.  A resolver is the resolve
function of the promise handed to a waiting consumer; we identify each
get call by its arrival index (0, 1, 2, ...), so the pending array is
modelled as a list of get indices.  Delivery of a value to a consumer
(either immediately in get, or by put resolving a pending resolver) is
recorded in the ghost field delivered.  The source distinguishes an
undefined array from an empty one, but every code path treats them
alike (a shift on either yields no element and falls through), so both
are modelled as the empty list. -/

structure AQState (α : Type) where
  available : List α
  pending : List Nat
  nextGet : Nat
  delivered : List (Nat × α)
deriving Repr, DecidableEq

namespace AQState

/-- Constructor: an optional iterable of initial values fills the
available buffer (each value wrapped as a resolved promise); no
consumer is waiting. -/
def init {α : Type} (vs : List α) : AQState α :=
  ⟨vs, [], 0, []⟩

/-- The put method: if a resolver is pending, shift it and resolve it
with the value; otherwise push the value onto the available buffer. -/
def put {α : Type} (s : AQState α) (v : α) : AQState α :=
  match s.pending with
  | g :: rest => { s with pending := rest, delivered := s.delivered ++ [(g, v)] }
  | [] => { s with available := s.available ++ [v] }

/-- The get method: if the available buffer is non-empty, shift its
head promise (that value is delivered to this get immediately);
otherwise push a new resolver onto pending. -/
def get {α : Type} (s : AQState α) : AQState α :=
  match s.available with
  | v :: rest =>
      { s with available := rest,
               delivered := s.delivered ++ [(s.nextGet, v)],
               nextGet := s.nextGet + 1 }
  | [] => { s with pending := s.pending ++ [s.nextGet], nextGet := s.nextGet + 1 }

/-- The size getter: the number of buffered entries when positive, the
negated number of waiting consumers when negative, else zero. -/
def size {α : Type} (s : AQState α) : Int :=
  if s.available.length > 0 then (s.available.length : Int)
  else if s.pending.length > 0 then -(s.pending.length : Int)
  else 0

end AQState

/-- An external event on an AsyncQueue: a producer put or a consumer
get. -/
inductive AQOp (α : Type) where
  | put (v : α)
  | get
deriving Repr, DecidableEq

/-- Run a list of queue operations from a state. -/
def AQState.run {α : Type} (s : AQState α) : List (AQOp α) → AQState α
  | [] => s
  | AQOp.put v :: rest => AQState.run (s.put v) rest
  | AQOp.get :: rest => AQState.run s.get rest

/-- The values supplied by the put operations of a sequence, in program
order. -/
def putsOf {α : Type} : List (AQOp α) → List α
  | [] => []
  | AQOp.put v :: rest => v :: putsOf rest
  | AQOp.get :: rest => putsOf rest

/-- The buffer/pending exclusion: the available buffer and the pending
resolver list are never both non-empty. -/
def AQExcl {α : Type} (s : AQState α) : Prop :=
  ¬(s.available ≠ [] ∧ s.pending ≠ [])

instance {α : Type} [DecidableEq α] (s : AQState α) : Decidable (AQExcl s) := by
  unfold AQExcl; infer_instance

theorem aqexcl_put {α : Type} (s : AQState α) (v : α) (h : AQExcl s) :
    AQExcl (s.put v) := by
  unfold AQExcl at *
  unfold AQState.put
  cases hp : s.pending with
  | nil => simp [hp]
  | cons g rest =>
      have hav : s.available = [] := by
        by_contra hne
        exact h ⟨hne, by simp [hp]⟩
      simp [hav]

theorem aqexcl_get {α : Type} (s : AQState α) (h : AQExcl s) :
    AQExcl s.get := by
  unfold AQExcl at *
  unfold AQState.get
  cases ha : s.available with
  | nil => simp [ha]
  | cons v rest =>
      have hp : s.pending = [] := by
        by_contra hne
        exact h ⟨by simp [ha], hne⟩
      intro hc
      have h2 := hc.2
      simp only [hp] at h2
      exact h2 rfl

theorem aqexcl_run {α : Type} (ops : List (AQOp α)) (s : AQState α) (h : AQExcl s) :
    AQExcl (s.run ops) := by
  induction ops generalizing s with
  | nil => exact h
  | cons op rest ih =>
      cases op with
      | put v => exact ih _ (aqexcl_put s v h)
      | get => exact ih _ (aqexcl_get s h)

theorem aq_size_spec {α : Type} (s : AQState α) (h : AQExcl s) :
    (s.available ≠ [] → s.size = (s.available.length : Int)) ∧
    (s.pending ≠ [] → s.size = -(s.pending.length : Int)) ∧
    (s.available = [] → s.pending = [] → s.size = 0) := by
  unfold AQState.size
  refine ⟨fun ha => ?_, fun hp => ?_, fun ha hp => ?_⟩
  · rw [if_pos]
    exact List.length_pos.mpr ha
  · have hav : s.available = [] := by
      by_contra hne
      exact h ⟨hne, hp⟩
    rw [if_neg (by simp [hav]), if_pos (List.length_pos.mpr hp)]
  · rw [if_neg (by simp [ha]), if_neg (by simp [hp])]

/-- FIFO correspondence invariant for a queue state reached after the
puts P (in program order): the buffer holds exactly the puts not yet
consumed, the pending resolvers are exactly the gets not yet served in
arrival order, and every delivery so far handed the k-th get the k-th
put. -/
def AQGood {α : Type} (P : List α) (s : AQState α) : Prop :=
  s.available = P.drop s.nextGet ∧
  s.pending = List.range' P.length (s.nextGet - P.length) ∧
  ∀ kv ∈ s.delivered, P[kv.1]? = some kv.2

theorem aq_put_pending {α : Type} (s : AQState α) (v : α) (g : Nat)
    (rest : List Nat) (h : s.pending = g :: rest) :
    s.put v = { s with pending := rest, delivered := s.delivered ++ [(g, v)] } := by
  unfold AQState.put
  rw [h]

theorem aq_put_empty {α : Type} (s : AQState α) (v : α) (h : s.pending = []) :
    s.put v = { s with available := s.available ++ [v] } := by
  unfold AQState.put
  rw [h]

theorem aq_get_avail {α : Type} (s : AQState α) (a : α) (rest : List α)
    (h : s.available = a :: rest) :
    s.get = { s with available := rest,
                     delivered := s.delivered ++ [(s.nextGet, a)],
                     nextGet := s.nextGet + 1 } := by
  unfold AQState.get
  rw [h]

theorem aq_get_empty {α : Type} (s : AQState α) (h : s.available = []) :
    s.get = { s with pending := s.pending ++ [s.nextGet],
                     nextGet := s.nextGet + 1 } := by
  unfold AQState.get
  rw [h]

theorem aqgood_put {α : Type} (P : List α) (s : AQState α) (v : α)
    (h : AQGood P s) : AQGood (P ++ [v]) (s.put v) := by
  obtain ⟨hav, hpend, hdel⟩ := h
  have hext : ∀ kv ∈ s.delivered, (P ++ [v])[kv.1]? = some kv.2 := by
    intro kv hkv
    have hk := hdel kv hkv
    have hlt : kv.1 < P.length := (List.getElem?_eq_some.mp hk).1
    rw [List.getElem?_append, if_pos hlt]
    exact hk
  cases hp : s.pending with
  | cons g rest =>
      rw [aq_put_pending s v g rest hp]
      rw [hp] at hpend
      have hcount : s.nextGet - P.length ≠ 0 := by
        intro h0
        rw [h0] at hpend
        exact List.noConfusion hpend
      obtain ⟨k, hk⟩ : ∃ k, s.nextGet - P.length = k + 1 :=
        ⟨s.nextGet - P.length - 1, by omega⟩
      have hge : P.length < s.nextGet := by omega
      rw [hk, List.range'_succ] at hpend
      injection hpend with hg hrest
      refine ⟨?_, ?_, ?_⟩
      · show s.available = (P ++ [v]).drop s.nextGet
        rw [hav, List.drop_eq_nil_of_le (by omega),
          List.drop_eq_nil_of_le (by simp; omega)]
      · show rest = List.range' (P ++ [v]).length (s.nextGet - (P ++ [v]).length)
        rw [hrest]
        simp only [List.length_append, List.length_singleton]
        congr 1
        omega
      · intro kv hkv
        simp only [List.mem_append, List.mem_singleton] at hkv
        rcases hkv with hold | hnew
        · exact hext kv hold
        · subst hnew
          simp only [hg]
          rw [List.getElem?_append_right (le_refl _)]
          simp
  | nil =>
      rw [aq_put_empty s v hp]
      rw [hp] at hpend
      have hle : s.nextGet ≤ P.length := by
        by_contra hgt
        have hne : s.nextGet - P.length ≠ 0 := by omega
        obtain ⟨k, hk⟩ : ∃ k, s.nextGet - P.length = k + 1 :=
          ⟨s.nextGet - P.length - 1, by omega⟩
        rw [hk, List.range'_succ] at hpend
        exact List.noConfusion hpend
      refine ⟨?_, ?_, hext⟩
      · show s.available ++ [v] = (P ++ [v]).drop s.nextGet
        rw [hav, List.drop_append_of_le_length hle]
      · show s.pending = List.range' (P ++ [v]).length (s.nextGet - (P ++ [v]).length)
        rw [hp]
        simp only [List.length_append, List.length_singleton]
        rw [show s.nextGet - (P.length + 1) = 0 by omega]
        rfl

theorem aqgood_get {α : Type} (P : List α) (s : AQState α)
    (h : AQGood P s) : AQGood P s.get := by
  obtain ⟨hav, hpend, hdel⟩ := h
  cases ha : s.available with
  | cons a rest =>
      rw [aq_get_avail s a rest ha]
      rw [ha] at hav
      have hget : P[s.nextGet]? = some a := by
        have hd := List.getElem?_drop P s.nextGet 0
        rw [← hav] at hd
        simpa using hd.symm
      have hlt : s.nextGet < P.length := (List.getElem?_eq_some.mp hget).1
      refine ⟨?_, ?_, ?_⟩
      · show rest = P.drop (s.nextGet + 1)
        have hdd : List.drop 1 (List.drop s.nextGet P) = List.drop (s.nextGet + 1) P := by
          rw [List.drop_drop]
        rw [← hdd, ← hav]
        rfl
      · show s.pending = List.range' P.length (s.nextGet + 1 - P.length)
        rw [hpend, show s.nextGet - P.length = 0 by omega,
          show s.nextGet + 1 - P.length = 0 by omega]
      · intro kv hkv
        simp only [List.mem_append, List.mem_singleton] at hkv
        rcases hkv with hold | hnew
        · exact hdel kv hold
        · subst hnew
          exact hget
  | nil =>
      rw [aq_get_empty s ha]
      rw [ha] at hav
      have hle : P.length ≤ s.nextGet := by
        by_contra hgt
        have hlen := congrArg List.length hav
        rw [List.length_drop] at hlen
        simp at hlen
        omega
      refine ⟨?_, ?_, hdel⟩
      · show s.available = P.drop (s.nextGet + 1)
        rw [ha, List.drop_eq_nil_of_le (by omega)]
      · show s.pending ++ [s.nextGet] =
          List.range' P.length (s.nextGet + 1 - P.length)
        rw [hpend, show s.nextGet + 1 - P.length = (s.nextGet - P.length) + 1 by omega,
          List.range'_concat]
        congr 2
        omega

theorem aqgood_run {α : Type} (ops : List (AQOp α)) (P : List α) (s : AQState α)
    (h : AQGood P s) :
    ∀ kv ∈ (s.run ops).delivered, (P ++ putsOf ops)[kv.1]? = some kv.2 := by
  induction ops generalizing P s with
  | nil =>
      intro kv hkv
      simp only [putsOf, List.append_nil]
      exact h.2.2 kv hkv
  | cons op rest ih =>
      cases op with
      | put v =>
          intro kv hkv
          have hr := ih (P ++ [v]) (s.put v) (aqgood_put P s v h) kv hkv
          simp only [putsOf]
          rwa [List.append_assoc, List.singleton_append] at hr
      | get =>
          intro kv hkv
          exact ih P s.get (aqgood_get P s h) kv hkv

/-- Claim C7: for every reachable state of AsyncQueue (created from any
initial iterable and evolved by any sequence of puts and gets), the
available buffer and the pending resolver list are never both
non-empty, size equals the buffer length when the buffer is non-empty,
the negated pending count when consumers are waiting, and zero
otherwise; moreover a single put and a single get each preserve the
exclusion invariant from any state satisfying it. -/
theorem C7_queue_invariant {α : Type} (vs : List α) (ops : List (AQOp α))
    (s : AQState α) (v : α) :
    (AQExcl s → AQExcl (s.put v) ∧ AQExcl s.get) ∧
    AQExcl ((AQState.init vs).run ops) ∧
    (((AQState.init vs).run ops).available ≠ [] →
      ((AQState.init vs).run ops).size =
        ((((AQState.init vs).run ops).available.length : Int))) ∧
    (((AQState.init vs).run ops).pending ≠ [] →
      ((AQState.init vs).run ops).size =
        -((((AQState.init vs).run ops).pending.length : Int))) ∧
    (((AQState.init vs).run ops).available = [] →
      ((AQState.init vs).run ops).pending = [] →
      ((AQState.init vs).run ops).size = 0) := by
  have hinit : AQExcl (AQState.init vs : AQState α) := by
    unfold AQExcl AQState.init
    simp
  have hreach := aqexcl_run ops (AQState.init vs) hinit
  exact ⟨fun hs => ⟨aqexcl_put s v hs, aqexcl_get s hs⟩, hreach,
    (aq_size_spec _ hreach).1, (aq_size_spec _ hreach).2.1,
    (aq_size_spec _ hreach).2.2⟩

/-- Witness for C7 at concrete inputs: the exclusion invariant holds
after a put and a get from the empty queue, and the size equations are
realized with a non-empty buffer and with a waiting consumer. -/
theorem C7_queue_invariant_witness :
    (AQExcl ((AQState.init ([] : List Nat)).put 3) ∧
      AQExcl (AQState.init ([] : List Nat)).get) ∧
    ((AQState.init ([5] : List Nat)).run []).size =
      ((((AQState.init ([5] : List Nat)).run []).available.length : Int)) ∧
    ((AQState.init ([] : List Nat)).run [AQOp.get]).size =
      -((((AQState.init ([] : List Nat)).run [AQOp.get]).pending.length : Int)) :=
  ⟨(C7_queue_invariant [] [] (AQState.init ([] : List Nat)) 3).1 (by decide),
   (C7_queue_invariant [5] [] (AQState.init ([] : List Nat)) 3).2.2.1 (by decide),
   (C7_queue_invariant [] [AQOp.get] (AQState.init ([] : List Nat)) 3).2.2.2.1
     (by decide)⟩

/-- Claim C8: AsyncQueue rendezvous is strict FIFO between the two
ends: for every interleaved sequence of puts and gets starting from
the empty queue, whenever the k-th get (counted globally, from 0)
has been delivered a value, that value is the one supplied by the
k-th put in program order. -/
theorem C8_fifo {α : Type} (ops : List (AQOp α)) (k : Nat) (v : α)
    (h : (k, v) ∈ ((AQState.init ([] : List α)).run ops).delivered) :
    (putsOf ops)[k]? = some v := by
  have hgood : AQGood ([] : List α) (AQState.init ([] : List α)) := by
    refine ⟨rfl, rfl, ?_⟩
    intro kv hkv
    exact absurd hkv (List.not_mem_nil kv)
  have := aqgood_run ops [] (AQState.init ([] : List α)) hgood (k, v) h
  rwa [List.nil_append] at this

/-- Witness for C8: with the sequence put 7, put 9, get, get, the
0-th get receives 7 and the 1-st get receives 9. -/
theorem C8_fifo_witness :
    (putsOf [AQOp.put 7, AQOp.put 9, AQOp.get, AQOp.get])[0]? = some 7 ∧
    (putsOf [AQOp.put 7, AQOp.put 9, AQOp.get, AQOp.get])[1]? = some (9 : Nat) :=
  ⟨C8_fifo [AQOp.put 7, AQOp.put 9, AQOp.get, AQOp.get] 0 7 (by decide),
   C8_fifo [AQOp.put 7, AQOp.put 9, AQOp.get, AQOp.get] 1 9 (by decide)⟩

/-! ## ReaderWriterLock (src/lib/readerwriterlock.ts)

The class holds four FIFO waiter queues, the identity of the current
upgradeable handle, the identity of the current upgraded handle, and
the integer census count.  We model the resolver closures stored on
the queues by waiter identifiers and the single-use lock handles by
handle identifiers, both minted from one monotone counter nextId.
The per-handle released flags of read and write handles are modelled
by the ghost fields activeReads (identifiers of unreleased read
handles) and activeWrite (identifier of the unreleased write handle):
a read or write handle is unreleased exactly while its identifier is
tracked there.  Upgradeable and upgraded handles check identity
against the corresponding lock field in the source, which the model
mirrors directly.  Cancellation tokens are modelled through their
observable effect in the single-threaded cooperative regime: a request
made with an already-cancelled token rejects without touching the lock
(no state change, so it needs no action), and the registration
callback of a queued waiter is the cancel action, which deletes the
waiter's node if it is still on a list and rejects its promise.
Because the registration fires synchronously and removes the node, a
woken resolver never observes a cancelled token, so a wake always
takes the corresponding lock, as modelled by the process steps. -/

structure RWState where
  readersQ : List Nat
  upgradeablesQ : List Nat
  upgradesQ : List Nat
  writersQ : List Nat
  upgradeable : Option Nat
  upgraded : Option Nat
  count : Int
  activeReads : List Nat
  activeWrite : Option Nat
  nextId : Nat
deriving Repr, DecidableEq

/-- The outcome delivered to the caller of one operation: a handle
granted synchronously, a waiter parked on a queue, a successful
release, the synchronous error thrown on a stale handle, the
rejection of a cancelled waiter with the cancellation error, or a
cancellation callback finding its node already removed. -/
inductive Outcome where
  | granted (h : Nat)
  | queued (w : Nat)
  | released
  | lockError
  | cancelledWaiter
  | noop
deriving Repr, DecidableEq

namespace RWState

/-- The freshly constructed lock. -/
def init : RWState :=
  ⟨[], [], [], [], none, none, 0, [], none, 0⟩

/-- Admission predicate for a plain read lock: non-negative census and
no queued writer and no queued upgrade (the writers check appears
twice in the source). -/
def canTakeReadLock (s : RWState) : Prop :=
  0 ≤ s.count ∧ s.writersQ = [] ∧ s.upgradesQ = [] ∧ s.writersQ = []

instance (s : RWState) : Decidable (canTakeReadLock s) := by
  unfold canTakeReadLock
  infer_instance

/-- Admission predicate for an upgradeable read lock: non-negative
census and no current upgradeable holder. -/
def canTakeUpgradeableReadLock (s : RWState) : Prop :=
  0 ≤ s.count ∧ s.upgradeable = none

instance (s : RWState) : Decidable (canTakeUpgradeableReadLock s) := by
  unfold canTakeUpgradeableReadLock
  infer_instance

/-- Admission predicate for the upgrade of the upgradeable holder to a
writer: the upgradeable holder is the sole holder and no upgrade is in
force. -/
def canTakeUpgradeLock (s : RWState) : Prop :=
  s.count = 1 ∧ s.upgradeable.isSome ∧ s.upgraded = none

instance (s : RWState) : Decidable (canTakeUpgradeLock s) := by
  unfold canTakeUpgradeLock
  infer_instance

/-- Admission predicate for a write lock: no holder at all. -/
def canTakeWriteLock (s : RWState) : Prop :=
  s.count = 0

instance (s : RWState) : Decidable (canTakeWriteLock s) := by
  unfold canTakeWriteLock
  infer_instance

/-- Take a read lock: increment the census and mint a fresh unreleased
read handle. -/
def takeReadLock (s : RWState) : RWState × Nat :=
  ({ s with count := s.count + 1,
            activeReads := s.activeReads ++ [s.nextId],
            nextId := s.nextId + 1 }, s.nextId)

/-- Take an upgradeable read lock: increment the census and install a
fresh handle as the current upgradeable holder. -/
def takeUpgradeableReadLock (s : RWState) : RWState × Nat :=
  ({ s with count := s.count + 1,
            upgradeable := some s.nextId,
            nextId := s.nextId + 1 }, s.nextId)

/-- Take the upgrade lock: install a fresh handle as the upgraded
writer and set the census to the exclusive value. -/
def takeUpgradeLock (s : RWState) : RWState × Nat :=
  ({ s with upgraded := some s.nextId,
            count := -1,
            nextId := s.nextId + 1 }, s.nextId)

/-- Take a write lock: set the census to the exclusive value and mint
a fresh unreleased write handle. -/
def takeWriteLock (s : RWState) : RWState × Nat :=
  ({ s with count := -1,
            activeWrite := some s.nextId,
            nextId := s.nextId + 1 }, s.nextId)

/-- Scheduling step 1: if a write lock can be taken and a writer is
queued, pop the head writer and resolve it (it takes the write lock);
report whether a waiter was woken. -/
def processWriteLockRequest (s : RWState) : RWState × Bool :=
  if canTakeWriteLock s then
    match s.writersQ with
    | [] => (s, false)
    | _ :: rest => ((takeWriteLock { s with writersQ := rest }).1, true)
  else (s, false)

/-- Scheduling step 2: if the upgrade lock can be taken and an upgrade
is queued, pop the head upgrade waiter and resolve it (it takes the
upgrade lock); report whether a waiter was woken. -/
def processUpgradeRequest (s : RWState) : RWState × Bool :=
  if canTakeUpgradeLock s then
    match s.upgradesQ with
    | [] => (s, false)
    | _ :: rest => ((takeUpgradeLock { s with upgradesQ := rest }).1, true)
  else (s, false)

/-- Scheduling step 3: if an upgradeable read lock can be taken and an
upgradeable waiter is queued, pop the head waiter and resolve it (it
takes the upgradeable read lock).  The source returns void here: no
short-circuit information flows to the caller. -/
def processUpgradeableReadLockRequest (s : RWState) : RWState :=
  if canTakeUpgradeableReadLock s then
    match s.upgradeablesQ with
    | [] => s
    | _ :: rest => (takeUpgradeableReadLock { s with upgradeablesQ := rest }).1
  else s

/-- Resolve a batch of queued readers in order: each takes a read
lock. -/
def wakeReaders : List Nat → RWState → RWState
  | [], s => s
  | _ :: rest, s => wakeReaders rest (takeReadLock s).1

/-- Scheduling step 4: if a read lock can be taken, resolve every
queued reader and clear the queue. -/
def processReadLockRequests (s : RWState) : RWState :=
  if canTakeReadLock s then
    { wakeReaders s.readersQ s with readersQ := [] }
  else s

/-- Re-scheduling after any release: step 1, then step 2, each
returning early when it woke a waiter; then step 3 followed
unconditionally by step 4. -/
def processLockRequests (s : RWState) : RWState :=
  if (processWriteLockRequest s).2 then (processWriteLockRequest s).1
  else if (processUpgradeRequest s).2 then (processUpgradeRequest s).1
  else processReadLockRequests (processUpgradeableReadLockRequest s)

/-- The read operation: acquire synchronously when admitted, otherwise
park a fresh waiter on the readers queue. -/
def read (s : RWState) : RWState × Outcome :=
  if canTakeReadLock s then
    ((takeReadLock s).1, Outcome.granted (takeReadLock s).2)
  else
    ({ s with readersQ := s.readersQ ++ [s.nextId], nextId := s.nextId + 1 },
      Outcome.queued s.nextId)

/-- The upgradeableRead operation. -/
def upgradeableRead (s : RWState) : RWState × Outcome :=
  if canTakeUpgradeableReadLock s then
    ((takeUpgradeableReadLock s).1, Outcome.granted (takeUpgradeableReadLock s).2)
  else
    ({ s with upgradeablesQ := s.upgradeablesQ ++ [s.nextId],
              nextId := s.nextId + 1 },
      Outcome.queued s.nextId)

/-- The write operation. -/
def write (s : RWState) : RWState × Outcome :=
  if canTakeWriteLock s then
    ((takeWriteLock s).1, Outcome.granted (takeWriteLock s).2)
  else
    ({ s with writersQ := s.writersQ ++ [s.nextId], nextId := s.nextId + 1 },
      Outcome.queued s.nextId)

/-- The upgrade operation of an upgradeable handle hd: it first checks
that hd is still the current upgradeable holder, then acquires the
upgrade synchronously when admitted, otherwise parks a fresh waiter on
the upgrades queue. -/
def upgrade (s : RWState) (hd : Nat) : RWState × Outcome :=
  if s.upgradeable = some hd then
    if canTakeUpgradeLock s then
      ((takeUpgradeLock s).1, Outcome.granted (takeUpgradeLock s).2)
    else
      ({ s with upgradesQ := s.upgradesQ ++ [s.nextId], nextId := s.nextId + 1 },
        Outcome.queued s.nextId)
  else (s, Outcome.lockError)

/-- Internal release of a read lock: decrement the census and
re-schedule. -/
def releaseReadLock (s : RWState) : RWState :=
  processLockRequests { s with count := s.count - 1 }

/-- The release operation of a read handle hd: error when the handle
was already released, else mark it released and run the internal
release. -/
def releaseRead (s : RWState) (hd : Nat) : RWState × Outcome :=
  if hd ∈ s.activeReads then
    (releaseReadLock { s with activeReads := s.activeReads.erase hd },
      Outcome.released)
  else (s, Outcome.lockError)

/-- Internal release of the upgradeable read lock: a census of -1
(still upgraded) is reset to 0, otherwise the census is decremented;
both upgraded and upgradeable are cleared; then re-schedule. -/
def releaseUpgradeableReadLock (s : RWState) : RWState :=
  processLockRequests
    { s with count := if s.count = -1 then 0 else s.count - 1,
             upgraded := none,
             upgradeable := none }

/-- The release operation of an upgradeable handle hd: error when hd
is no longer the current upgradeable holder. -/
def releaseUpgradeable (s : RWState) (hd : Nat) : RWState × Outcome :=
  if s.upgradeable = some hd then
    (releaseUpgradeableReadLock s, Outcome.released)
  else (s, Outcome.lockError)

/-- Internal release of the upgrade lock: clear upgraded, restore the
census of the sole upgradeable holder, re-schedule. -/
def releaseUpgradeLock (s : RWState) : RWState :=
  processLockRequests { s with upgraded := none, count := 1 }

/-- The release operation of an upgraded handle hd: error when hd is
no longer the current upgraded holder. -/
def releaseUpgrade (s : RWState) (hd : Nat) : RWState × Outcome :=
  if s.upgraded = some hd then
    (releaseUpgradeLock s, Outcome.released)
  else (s, Outcome.lockError)

/-- Internal release of a write lock: zero the census and
re-schedule. -/
def releaseWriteLock (s : RWState) : RWState :=
  processLockRequests { s with count := 0 }

/-- The release operation of a write handle hd: error when the handle
was already released. -/
def releaseWrite (s : RWState) (hd : Nat) : RWState × Outcome :=
  if s.activeWrite = some hd then
    (releaseWriteLock { s with activeWrite := none }, Outcome.released)
  else (s, Outcome.lockError)

/-- The cancellation callback of waiter w: if its node is still on a
queue, delete the node and reject the waiter's promise with the
cancellation error; otherwise do nothing. -/
def cancel (s : RWState) (w : Nat) : RWState × Outcome :=
  if w ∈ s.readersQ ∨ w ∈ s.upgradeablesQ ∨ w ∈ s.upgradesQ ∨ w ∈ s.writersQ then
    ({ s with readersQ := s.readersQ.erase w,
              upgradeablesQ := s.upgradeablesQ.erase w,
              upgradesQ := s.upgradesQ.erase w,
              writersQ := s.writersQ.erase w },
      Outcome.cancelledWaiter)
  else (s, Outcome.noop)

end RWState

/-- An external event on the lock: a public acquisition call, a call
on a handle (upgrade or release), or the firing of a cancellation. -/
inductive Action where
  | read
  | upgradeableRead
  | write
  | upgrade (hd : Nat)
  | releaseRead (hd : Nat)
  | releaseUpgradeable (hd : Nat)
  | releaseUpgrade (hd : Nat)
  | releaseWrite (hd : Nat)
  | cancel (w : Nat)
deriving Repr, DecidableEq

/-- Dispatch one action. -/
def RWState.apply (s : RWState) : Action → RWState × Outcome
  | Action.read => s.read
  | Action.upgradeableRead => s.upgradeableRead
  | Action.write => s.write
  | Action.upgrade hd => s.upgrade hd
  | Action.releaseRead hd => s.releaseRead hd
  | Action.releaseUpgradeable hd => s.releaseUpgradeable hd
  | Action.releaseUpgrade hd => s.releaseUpgrade hd
  | Action.releaseWrite hd => s.releaseWrite hd
  | Action.cancel w => s.cancel w

/-- Run a sequence of actions from a state; the reachable states of
the lock are exactly RWState.run RWState.init as. -/
def RWState.run (s : RWState) : List Action → RWState
  | [] => s
  | a :: rest => RWState.run (s.apply a).1 rest

/-- All waiter and unreleased-read-handle identifiers tracked in
lists. -/
def queueIds (s : RWState) : List Nat :=
  s.activeReads ++ s.readersQ ++ s.upgradeablesQ ++ s.upgradesQ ++ s.writersQ

/-- The handle identifiers tracked in option fields. -/
def optIds (s : RWState) : List Nat :=
  s.upgradeable.toList ++ s.upgraded.toList ++ s.activeWrite.toList

/-- The inductive invariant of the lock: the census agrees with the
ghost holder bookkeeping, the upgraded and plain-writer roles imply
the exclusive census, every identifier list is duplicate-free, and
every tracked identifier is below the mint counter. -/
def Inv (s : RWState) : Prop :=
  (s.upgraded = none → s.activeWrite = none →
    s.count = (s.activeReads.length : Int) +
      (if s.upgradeable.isSome then 1 else 0)) ∧
  (s.upgraded.isSome → s.upgradeable.isSome ∧ s.count = -1 ∧
    s.activeReads = [] ∧ s.activeWrite = none) ∧
  (s.activeWrite.isSome → s.count = -1 ∧ s.activeReads = [] ∧
    s.upgradeable = none ∧ s.upgraded = none) ∧
  s.activeReads.Nodup ∧ s.readersQ.Nodup ∧ s.upgradeablesQ.Nodup ∧
  s.upgradesQ.Nodup ∧ s.writersQ.Nodup ∧
  (∀ i ∈ queueIds s ++ optIds s, i < s.nextId)

instance (s : RWState) : Decidable (Inv s) := by
  unfold Inv queueIds optIds
  infer_instance

namespace RWState

theorem wakeReaders_eq (l : List Nat) (s : RWState) :
    wakeReaders l s =
      { s with count := s.count + l.length,
               activeReads := s.activeReads ++ List.range' s.nextId l.length,
               nextId := s.nextId + l.length } := by
  induction l generalizing s with
  | nil =>
      cases s
      simp [wakeReaders]
  | cons a t ih =>
      show wakeReaders t (takeReadLock s).1 = _
      rw [ih]
      simp only [takeReadLock, List.length_cons]
      congr 1
      · push_cast
        ring
      · rw [List.range'_succ, List.append_assoc, List.singleton_append]
      · omega

theorem pwlr_miss (s : RWState) (h : ¬ canTakeWriteLock s ∨ s.writersQ = []) :
    processWriteLockRequest s = (s, false) := by
  unfold processWriteLockRequest
  rcases h with h | h
  · rw [if_neg h]
  · rcases Decidable.em (canTakeWriteLock s) with hc | hc
    · rw [if_pos hc, h]
    · rw [if_neg hc]

theorem pwlr_hit (s : RWState) (w : Nat) (rest : List Nat)
    (hc : canTakeWriteLock s) (hq : s.writersQ = w :: rest) :
    processWriteLockRequest s =
      ((takeWriteLock { s with writersQ := rest }).1, true) := by
  unfold processWriteLockRequest
  rw [if_pos hc, hq]

theorem pur_miss (s : RWState) (h : ¬ canTakeUpgradeLock s ∨ s.upgradesQ = []) :
    processUpgradeRequest s = (s, false) := by
  unfold processUpgradeRequest
  rcases h with h | h
  · rw [if_neg h]
  · rcases Decidable.em (canTakeUpgradeLock s) with hc | hc
    · rw [if_pos hc, h]
    · rw [if_neg hc]

theorem pur_hit (s : RWState) (w : Nat) (rest : List Nat)
    (hc : canTakeUpgradeLock s) (hq : s.upgradesQ = w :: rest) :
    processUpgradeRequest s =
      ((takeUpgradeLock { s with upgradesQ := rest }).1, true) := by
  unfold processUpgradeRequest
  rw [if_pos hc, hq]

theorem purl_miss (s : RWState)
    (h : ¬ canTakeUpgradeableReadLock s ∨ s.upgradeablesQ = []) :
    processUpgradeableReadLockRequest s = s := by
  unfold processUpgradeableReadLockRequest
  rcases h with h | h
  · rw [if_neg h]
  · rcases Decidable.em (canTakeUpgradeableReadLock s) with hc | hc
    · rw [if_pos hc, h]
    · rw [if_neg hc]

theorem purl_hit (s : RWState) (w : Nat) (rest : List Nat)
    (hc : canTakeUpgradeableReadLock s) (hq : s.upgradeablesQ = w :: rest) :
    processUpgradeableReadLockRequest s =
      (takeUpgradeableReadLock { s with upgradeablesQ := rest }).1 := by
  unfold processUpgradeableReadLockRequest
  rw [if_pos hc, hq]

theorem prlr_miss (s : RWState) (h : ¬ canTakeReadLock s) :
    processReadLockRequests s = s := by
  unfold processReadLockRequests
  rw [if_neg h]

theorem prlr_hit (s : RWState) (hc : canTakeReadLock s) :
    processReadLockRequests s =
      { s with count := s.count + s.readersQ.length,
               readersQ := [],
               activeReads := s.activeReads ++
                 List.range' s.nextId s.readersQ.length,
               nextId := s.nextId + s.readersQ.length } := by
  unfold processReadLockRequests
  rw [if_pos hc, wakeReaders_eq]

theorem plr_case1 (s : RWState) (w : Nat) (rest : List Nat)
    (hc : canTakeWriteLock s) (hq : s.writersQ = w :: rest) :
    processLockRequests s = (takeWriteLock { s with writersQ := rest }).1 := by
  unfold processLockRequests
  rw [pwlr_hit s w rest hc hq]
  simp

theorem plr_case2 (s : RWState) (w : Nat) (rest : List Nat)
    (h1 : ¬ canTakeWriteLock s ∨ s.writersQ = [])
    (hc : canTakeUpgradeLock s) (hq : s.upgradesQ = w :: rest) :
    processLockRequests s = (takeUpgradeLock { s with upgradesQ := rest }).1 := by
  unfold processLockRequests
  rw [pwlr_miss s h1, pur_hit s w rest hc hq]
  simp

theorem plr_case3 (s : RWState)
    (h1 : ¬ canTakeWriteLock s ∨ s.writersQ = [])
    (h2 : ¬ canTakeUpgradeLock s ∨ s.upgradesQ = []) :
    processLockRequests s =
      processReadLockRequests (processUpgradeableReadLockRequest s) := by
  unfold processLockRequests
  rw [pwlr_miss s h1, pur_miss s h2]
  simp

theorem nodup_append_fresh (l : List Nat) (n : Nat) (hl : l.Nodup) (hn : n ∉ l) :
    (l ++ [n]).Nodup := by
  simp [List.nodup_append, hl]
  intro a
  exact hn a

theorem fr_parts (s : RWState)
    (fr : ∀ i ∈ queueIds s ++ optIds s, i < s.nextId) :
    (∀ i ∈ s.activeReads, i < s.nextId) ∧ (∀ i ∈ s.readersQ, i < s.nextId) ∧
    (∀ i ∈ s.upgradeablesQ, i < s.nextId) ∧ (∀ i ∈ s.upgradesQ, i < s.nextId) ∧
    (∀ i ∈ s.writersQ, i < s.nextId) ∧
    (∀ x, s.upgradeable = some x → x < s.nextId) ∧
    (∀ x, s.upgraded = some x → x < s.nextId) ∧
    (∀ x, s.activeWrite = some x → x < s.nextId) := by
  simp only [queueIds, optIds, List.mem_append] at fr
  refine ⟨fun i hi => fr i (by tauto), fun i hi => fr i (by tauto),
    fun i hi => fr i (by tauto), fun i hi => fr i (by tauto),
    fun i hi => fr i (by tauto), fun x hx => fr x (by simp [hx]),
    fun x hx => fr x (by simp [hx]), fun x hx => fr x (by simp [hx])⟩

/-- Consequences of the invariant when the census is non-negative: no
upgraded holder, no plain writer, and the census counts the readers
plus the optional upgradeable holder. -/
theorem inv_nonneg_facts (s : RWState) (hinv : Inv s) (h0 : 0 ≤ s.count) :
    s.upgraded = none ∧ s.activeWrite = none ∧
    s.count = (s.activeReads.length : Int) +
      (if s.upgradeable.isSome then 1 else 0) := by
  obtain ⟨c1, c2, c3, -⟩ := hinv
  have hug : s.upgraded = none := by
    cases hu : s.upgraded with
    | none => rfl
    | some x =>
        have h2 := (c2 (by rw [hu]; rfl)).2.1
        omega
  have haw : s.activeWrite = none := by
    cases hw : s.activeWrite with
    | none => rfl
    | some x =>
        have h3 := (c3 (by rw [hw]; rfl)).1
        omega
  exact ⟨hug, haw, c1 hug haw⟩

/-- Shrinking any of the four waiter queues preserves the
invariant. -/
theorem inv_queues_sub (s : RWState) (rq uq gq wq : List Nat)
    (h1 : rq.Sublist s.readersQ) (h2 : uq.Sublist s.upgradeablesQ)
    (h3 : gq.Sublist s.upgradesQ) (h4 : wq.Sublist s.writersQ)
    (hinv : Inv s) :
    Inv { s with readersQ := rq, upgradeablesQ := uq, upgradesQ := gq,
                 writersQ := wq } := by
  obtain ⟨c1, c2, c3, n1, n2, n3, n4, n5, fr⟩ := hinv
  unfold Inv
  try dsimp only
  refine ⟨c1, c2, c3, n1, List.Nodup.sublist h1 n2, List.Nodup.sublist h2 n3,
    List.Nodup.sublist h3 n4, List.Nodup.sublist h4 n5, ?_⟩
  intro i hi
  apply fr
  have m1 : i ∈ rq → i ∈ s.readersQ := fun hm => h1.subset hm
  have m2 : i ∈ uq → i ∈ s.upgradeablesQ := fun hm => h2.subset hm
  have m3 : i ∈ gq → i ∈ s.upgradesQ := fun hm => h3.subset hm
  have m4 : i ∈ wq → i ∈ s.writersQ := fun hm => h4.subset hm
  clear c1 c2 c3 n1 n2 n3 n4 n5 h1 h2 h3 h4 fr
  simp only [queueIds, optIds, List.mem_append] at hi ⊢
  try dsimp only at hi
  tauto

theorem inv_takeReadLock (s : RWState) (hinv : Inv s) (hc : canTakeReadLock s) :
    Inv (takeReadLock s).1 := by
  obtain ⟨hug, haw, hcount⟩ := inv_nonneg_facts s hinv hc.1
  obtain ⟨c1, c2, c3, n1, n2, n3, n4, n5, fr⟩ := hinv
  obtain ⟨f1, f2, f3, f4, f5, f6, f7, f8⟩ := fr_parts s fr
  have hfresh : s.nextId ∉ s.activeReads := fun hmem => lt_irrefl _ (f1 _ hmem)
  simp only [takeReadLock]
  unfold Inv
  try dsimp only
  refine ⟨?_, ?_, ?_, nodup_append_fresh _ _ n1 hfresh, n2, n3, n4, n5, ?_⟩
  · intro h1 h2
    simp only [List.length_append, List.length_singleton]
    push_cast
    omega
  · rw [hug]
    intro h
    exact absurd h (by simp)
  · rw [haw]
    intro h
    exact absurd h (by simp)
  · intro i hi
    have hsub : i ∈ (queueIds s ++ optIds s) ++ [s.nextId] := by
      clear * - hi
      simp only [queueIds, optIds, List.mem_append, List.mem_singleton] at hi ⊢
      try dsimp only at hi
      tauto
    rcases List.mem_append.mp hsub with h | h
    · exact lt_trans (fr i h) (by omega)
    · simp at h
      omega

theorem inv_takeUpgradeableReadLock (s : RWState) (hinv : Inv s)
    (hc : canTakeUpgradeableReadLock s) :
    Inv (takeUpgradeableReadLock s).1 := by
  obtain ⟨hug, haw, hcount⟩ := inv_nonneg_facts s hinv hc.1
  obtain ⟨c1, c2, c3, n1, n2, n3, n4, n5, fr⟩ := hinv
  have hunone : s.upgradeable = none := hc.2
  simp only [takeUpgradeableReadLock]
  unfold Inv
  try dsimp only
  refine ⟨?_, ?_, ?_, n1, n2, n3, n4, n5, ?_⟩
  · intro h1 h2
    rw [hunone] at hcount
    simp only [Option.isSome_none, Bool.false_eq_true, if_false] at hcount
    simp only [Option.isSome_some, if_true]
    omega
  · rw [hug]
    intro h
    exact absurd h (by simp)
  · rw [haw]
    intro h
    exact absurd h (by simp)
  · intro i hi
    have hsub : i ∈ (queueIds s ++ optIds s) ++ [s.nextId] := by
      clear * - hi hunone
      simp only [queueIds, optIds, List.mem_append, List.mem_singleton] at hi ⊢
      try dsimp only at hi
      simp only [hunone, Option.toList_some, Option.toList_none,
        List.mem_singleton, List.not_mem_nil] at hi ⊢
      tauto
    rcases List.mem_append.mp hsub with h | h
    · exact lt_trans (fr i h) (by omega)
    · simp at h
      omega

theorem inv_takeUpgradeLock (s : RWState) (hinv : Inv s)
    (hc : canTakeUpgradeLock s) :
    Inv (takeUpgradeLock s).1 := by
  obtain ⟨hc1, hcu, hcg⟩ := hc
  obtain ⟨hug, haw, hcount⟩ := inv_nonneg_facts s hinv (by omega)
  obtain ⟨c1, c2, c3, n1, n2, n3, n4, n5, fr⟩ := hinv
  have haR : s.activeReads = [] := by
    rw [if_pos hcu] at hcount
    have hz : (s.activeReads.length : Int) = 0 := by omega
    simpa using hz
  simp only [takeUpgradeLock]
  unfold Inv
  try dsimp only
  refine ⟨?_, ?_, ?_, n1, n2, n3, n4, n5, ?_⟩
  · intro h1 h2
    exact absurd h1 (by simp)
  · intro h
    exact ⟨hcu, rfl, haR, haw⟩
  · rw [haw]
    intro h
    exact absurd h (by simp)
  · intro i hi
    have hsub : i ∈ (queueIds s ++ optIds s) ++ [s.nextId] := by
      clear * - hi hug
      simp only [queueIds, optIds, List.mem_append, List.mem_singleton] at hi ⊢
      try dsimp only at hi
      simp only [hug, Option.toList_some, Option.toList_none,
        List.mem_singleton, List.not_mem_nil] at hi ⊢
      tauto
    rcases List.mem_append.mp hsub with h | h
    · exact lt_trans (fr i h) (by omega)
    · simp at h
      omega

theorem inv_takeWriteLock (s : RWState) (hinv : Inv s)
    (hc : canTakeWriteLock s) :
    Inv (takeWriteLock s).1 := by
  have hc0 : (0 : Int) ≤ s.count := by
    rw [hc]
  obtain ⟨hug, haw, hcount⟩ := inv_nonneg_facts s hinv hc0
  obtain ⟨c1, c2, c3, n1, n2, n3, n4, n5, fr⟩ := hinv
  have hcz : s.count = 0 := hc
  have haRu : s.activeReads = [] ∧ s.upgradeable = none := by
    rcases hx : s.upgradeable with - | x
    · rw [hx, if_neg (by simp)] at hcount
      refine ⟨?_, rfl⟩
      have hz : (s.activeReads.length : Int) = 0 := by omega
      simpa using hz
    · rw [hx, if_pos (by simp)] at hcount
      have hlen : (0 : Int) ≤ (s.activeReads.length : Int) := by positivity
      omega
  simp only [takeWriteLock]
  unfold Inv
  try dsimp only
  refine ⟨?_, ?_, ?_, n1, n2, n3, n4, n5, ?_⟩
  · intro h1 h2
    exact absurd h2 (by simp)
  · rw [hug]
    intro h
    exact absurd h (by simp)
  · intro h
    exact ⟨rfl, haRu.1, haRu.2, hug⟩
  · intro i hi
    have hsub : i ∈ (queueIds s ++ optIds s) ++ [s.nextId] := by
      clear * - hi haw
      simp only [queueIds, optIds, List.mem_append, List.mem_singleton] at hi ⊢
      try dsimp only at hi
      simp only [haw, Option.toList_some, Option.toList_none,
        List.mem_singleton, List.not_mem_nil] at hi ⊢
      tauto
    rcases List.mem_append.mp hsub with h | h
    · exact lt_trans (fr i h) (by omega)
    · simp at h
      omega

theorem inv_enqueue_readers (s : RWState) (hinv : Inv s) :
    Inv { s with readersQ := s.readersQ ++ [s.nextId], nextId := s.nextId + 1 } := by
  obtain ⟨c1, c2, c3, n1, n2, n3, n4, n5, fr⟩ := hinv
  obtain ⟨f1, f2, f3, f4, f5, f6, f7, f8⟩ := fr_parts s fr
  refine ⟨c1, c2, c3, n1,
    nodup_append_fresh _ _ n2 (fun hm => lt_irrefl _ (f2 _ hm)), n3, n4, n5, ?_⟩
  intro i hi
  try dsimp only
  have hsub : i ∈ (queueIds s ++ optIds s) ++ [s.nextId] := by
    clear * - hi
    simp only [queueIds, optIds, List.mem_append, List.mem_singleton] at hi ⊢
    try dsimp only at hi
    tauto
  rcases List.mem_append.mp hsub with h | h
  · exact lt_trans (fr i h) (by omega)
  · simp at h
    omega

theorem inv_enqueue_upgradeables (s : RWState) (hinv : Inv s) :
    Inv { s with upgradeablesQ := s.upgradeablesQ ++ [s.nextId],
                 nextId := s.nextId + 1 } := by
  obtain ⟨c1, c2, c3, n1, n2, n3, n4, n5, fr⟩ := hinv
  obtain ⟨f1, f2, f3, f4, f5, f6, f7, f8⟩ := fr_parts s fr
  refine ⟨c1, c2, c3, n1, n2,
    nodup_append_fresh _ _ n3 (fun hm => lt_irrefl _ (f3 _ hm)), n4, n5, ?_⟩
  intro i hi
  try dsimp only
  have hsub : i ∈ (queueIds s ++ optIds s) ++ [s.nextId] := by
    clear * - hi
    simp only [queueIds, optIds, List.mem_append, List.mem_singleton] at hi ⊢
    try dsimp only at hi
    tauto
  rcases List.mem_append.mp hsub with h | h
  · exact lt_trans (fr i h) (by omega)
  · simp at h
    omega

theorem inv_enqueue_upgrades (s : RWState) (hinv : Inv s) :
    Inv { s with upgradesQ := s.upgradesQ ++ [s.nextId],
                 nextId := s.nextId + 1 } := by
  obtain ⟨c1, c2, c3, n1, n2, n3, n4, n5, fr⟩ := hinv
  obtain ⟨f1, f2, f3, f4, f5, f6, f7, f8⟩ := fr_parts s fr
  refine ⟨c1, c2, c3, n1, n2, n3,
    nodup_append_fresh _ _ n4 (fun hm => lt_irrefl _ (f4 _ hm)), n5, ?_⟩
  intro i hi
  try dsimp only
  have hsub : i ∈ (queueIds s ++ optIds s) ++ [s.nextId] := by
    clear * - hi
    simp only [queueIds, optIds, List.mem_append, List.mem_singleton] at hi ⊢
    try dsimp only at hi
    tauto
  rcases List.mem_append.mp hsub with h | h
  · exact lt_trans (fr i h) (by omega)
  · simp at h
    omega

theorem inv_enqueue_writers (s : RWState) (hinv : Inv s) :
    Inv { s with writersQ := s.writersQ ++ [s.nextId], nextId := s.nextId + 1 } := by
  obtain ⟨c1, c2, c3, n1, n2, n3, n4, n5, fr⟩ := hinv
  obtain ⟨f1, f2, f3, f4, f5, f6, f7, f8⟩ := fr_parts s fr
  refine ⟨c1, c2, c3, n1, n2, n3, n4,
    nodup_append_fresh _ _ n5 (fun hm => lt_irrefl _ (f5 _ hm)), ?_⟩
  intro i hi
  try dsimp only
  have hsub : i ∈ (queueIds s ++ optIds s) ++ [s.nextId] := by
    clear * - hi
    simp only [queueIds, optIds, List.mem_append, List.mem_singleton] at hi ⊢
    try dsimp only at hi
    tauto
  rcases List.mem_append.mp hsub with h | h
  · exact lt_trans (fr i h) (by omega)
  · simp at h
    omega

theorem inv_processReadLockRequests (s : RWState) (hinv : Inv s) :
    Inv (processReadLockRequests s) := by
  rcases Decidable.em (canTakeReadLock s) with hc | hc
  · rw [prlr_hit s hc]
    obtain ⟨hug, haw, hcount⟩ := inv_nonneg_facts s hinv hc.1
    obtain ⟨c1, c2, c3, n1, n2, n3, n4, n5, fr⟩ := hinv
    obtain ⟨f1, f2, f3, f4, f5, f6, f7, f8⟩ := fr_parts s fr
    refine ⟨?_, ?_, ?_, ?_, List.nodup_nil, n3, n4, n5, ?_⟩
    · intro h1 h2
      simp only [List.length_append, List.length_range']
      generalize hu2 : (if s.upgradeable.isSome then (1 : Int) else 0) = u at hcount ⊢
      push_cast
      omega
    · rw [hug]
      intro h
      exact absurd h (by simp)
    · rw [haw]
      intro h
      exact absurd h (by simp)
    · simp only [List.nodup_append]
      refine ⟨n1, List.nodup_range' _ _, ?_⟩
      intro a ha hb
      have hlt := f1 a ha
      have hge := (List.mem_range'_1.mp hb).1
      omega
    · intro i hi
      try dsimp only
      have hsub : i ∈ (queueIds s ++ optIds s) ++
          List.range' s.nextId s.readersQ.length := by
        clear * - hi
        simp only [queueIds, optIds, List.mem_append, List.not_mem_nil,
          or_false, false_or] at hi ⊢
        try dsimp only at hi
        tauto
      rcases List.mem_append.mp hsub with h | h
      · exact lt_of_lt_of_le (fr i h) (Nat.le_add_right _ _)
      · have hb := (List.mem_range'_1.mp h).2
        omega
  · rw [prlr_miss s hc]
    exact hinv

theorem inv_processUpgradeableReadLockRequest (s : RWState) (hinv : Inv s) :
    Inv (processUpgradeableReadLockRequest s) := by
  rcases Decidable.em (canTakeUpgradeableReadLock s) with hc | hc
  · cases hq : s.upgradeablesQ with
    | nil =>
        rw [purl_miss s (Or.inr hq)]
        exact hinv
    | cons w rest =>
        rw [purl_hit s w rest hc hq]
        have hs :=
          inv_queues_sub s s.readersQ rest s.upgradesQ s.writersQ
            (List.Sublist.refl _)
            (by rw [hq]; exact List.sublist_cons_self w rest)
            (List.Sublist.refl _) (List.Sublist.refl _) hinv
        exact inv_takeUpgradeableReadLock _ hs ⟨hc.1, hc.2⟩
  · rw [purl_miss s (Or.inl hc)]
    exact hinv

theorem inv_plr_from_step2 (s : RWState) (hinv : Inv s)
    (h1 : ¬ canTakeWriteLock s ∨ s.writersQ = []) :
    Inv (processLockRequests s) := by
  rcases Decidable.em (canTakeUpgradeLock s) with hcu | hcu
  · cases hq : s.upgradesQ with
    | cons w rest =>
        rw [plr_case2 s w rest h1 hcu hq]
        have hs :=
          inv_queues_sub s s.readersQ s.upgradeablesQ rest s.writersQ
            (List.Sublist.refl _) (List.Sublist.refl _)
            (by rw [hq]; exact List.sublist_cons_self w rest)
            (List.Sublist.refl _) hinv
        exact inv_takeUpgradeLock _ hs ⟨hcu.1, hcu.2.1, hcu.2.2⟩
    | nil =>
        rw [plr_case3 s h1 (Or.inr hq)]
        exact inv_processReadLockRequests _
          (inv_processUpgradeableReadLockRequest s hinv)
  · rw [plr_case3 s h1 (Or.inl hcu)]
    exact inv_processReadLockRequests _
      (inv_processUpgradeableReadLockRequest s hinv)

theorem inv_processLockRequests (s : RWState) (hinv : Inv s) :
    Inv (processLockRequests s) := by
  rcases Decidable.em (canTakeWriteLock s) with hcw | hcw
  · cases hq : s.writersQ with
    | cons w rest =>
        rw [plr_case1 s w rest hcw hq]
        have hs :=
          inv_queues_sub s s.readersQ s.upgradeablesQ s.upgradesQ rest
            (List.Sublist.refl _) (List.Sublist.refl _) (List.Sublist.refl _)
            (by rw [hq]; exact List.sublist_cons_self w rest) hinv
        exact inv_takeWriteLock _ hs hcw
    | nil => exact inv_plr_from_step2 s hinv (Or.inr hq)
  · exact inv_plr_from_step2 s hinv (Or.inl hcw)

theorem inv_releaseReadMid (s : RWState) (hd : Nat) (hinv : Inv s)
    (hmem : hd ∈ s.activeReads) :
    Inv { s with activeReads := s.activeReads.erase hd,
                 count := s.count - 1 } := by
  obtain ⟨c1, c2, c3, n1, n2, n3, n4, n5, fr⟩ := hinv
  have hne : s.activeReads ≠ [] := by
    intro h
    rw [h] at hmem
    exact absurd hmem (List.not_mem_nil hd)
  have hug : s.upgraded = none := by
    cases hu : s.upgraded with
    | none => rfl
    | some x => exact absurd (c2 (by rw [hu]; rfl)).2.2.1 hne
  have haw : s.activeWrite = none := by
    cases hw : s.activeWrite with
    | none => rfl
    | some x => exact absurd (c3 (by rw [hw]; rfl)).2.1 hne
  have hcount := c1 hug haw
  have hlen : (s.activeReads.erase hd).length = s.activeReads.length - 1 :=
    List.length_erase_of_mem hmem
  have hpos : 0 < s.activeReads.length := List.length_pos.mpr hne
  refine ⟨?_, ?_, ?_, List.Nodup.sublist (List.erase_sublist hd _) n1,
    n2, n3, n4, n5, ?_⟩
  · intro h1 h2
    generalize hu2 : (if s.upgradeable.isSome then (1 : Int) else 0) = u
      at hcount ⊢
    rw [hlen]
    push_cast [hpos]
    omega
  · rw [hug]
    intro h
    exact absurd h (by simp)
  · rw [haw]
    intro h
    exact absurd h (by simp)
  · intro i hi
    apply fr
    have m0 : i ∈ s.activeReads.erase hd → i ∈ s.activeReads :=
      fun hm => (List.erase_sublist hd _).subset hm
    clear * - hi m0
    simp only [queueIds, optIds, List.mem_append] at hi ⊢
    try dsimp only at hi
    tauto

theorem inv_releaseUpgradeableMid (s : RWState) (hd : Nat) (hinv : Inv s)
    (hu : s.upgradeable = some hd) :
    Inv { s with count := if s.count = -1 then 0 else s.count - 1,
                 upgraded := none, upgradeable := none } := by
  obtain ⟨c1, c2, c3, n1, n2, n3, n4, n5, fr⟩ := hinv
  have haw : s.activeWrite = none := by
    cases hw : s.activeWrite with
    | none => rfl
    | some x =>
        have h3 := (c3 (by rw [hw]; rfl)).2.2.1
        rw [hu] at h3
        exact Option.noConfusion h3
  have haR : s.activeReads = [] ∨
      s.count = (s.activeReads.length : Int) + 1 := by
    cases hg : s.upgraded with
    | some x => exact Or.inl (c2 (by rw [hg]; rfl)).2.2.1
    | none =>
        have hcount := c1 hg haw
        rw [hu] at hcount
        simp only [Option.isSome_some, if_true] at hcount
        exact Or.inr hcount
  have haRm1 : s.count = -1 → s.activeReads = [] := by
    intro hm
    rcases haR with h | h
    · exact h
    · have hlen : (0 : Int) ≤ (s.activeReads.length : Int) := by positivity
      omega
  refine ⟨?_, ?_, ?_, n1, n2, n3, n4, n5, ?_⟩
  · intro h1 h2
    simp only [Option.isSome_none, Bool.false_eq_true, if_false]
    rcases Decidable.em (s.count = -1) with hm | hm
    · rw [if_pos hm, haRm1 hm]
      simp
    · rw [if_neg hm]
      rcases haR with h | h
      · cases hg : s.upgraded with
        | some x =>
            have hcm := (c2 (by rw [hg]; rfl)).2.1
            exact absurd hcm hm
        | none =>
            have hcount := c1 hg haw
            rw [hu] at hcount
            simp only [Option.isSome_some, if_true] at hcount
            rw [h] at hcount ⊢
            simp at hcount ⊢
            omega
      · rw [h]
        ring
  · intro h
    exact absurd h (by simp)
  · rw [haw]
    intro h
    exact absurd h (by simp)
  · intro i hi
    apply fr
    clear * - hi
    simp only [queueIds, optIds, List.mem_append] at hi ⊢
    try dsimp only at hi
    simp only [Option.toList_none, List.not_mem_nil, or_false, false_or] at hi
    tauto

theorem inv_releaseUpgradeMid (s : RWState) (hd : Nat) (hinv : Inv s)
    (hg : s.upgraded = some hd) :
    Inv { s with upgraded := none, count := 1 } := by
  obtain ⟨c1, c2, c3, n1, n2, n3, n4, n5, fr⟩ := hinv
  have hfacts := c2 (by rw [hg]; rfl)
  refine ⟨?_, ?_, ?_, n1, n2, n3, n4, n5, ?_⟩
  · intro h1 h2
    rw [hfacts.2.2.1]
    rw [if_pos hfacts.1]
    simp
  · intro h
    exact absurd h (by simp)
  · rw [hfacts.2.2.2]
    intro h
    exact absurd h (by simp)
  · intro i hi
    apply fr
    clear * - hi
    simp only [queueIds, optIds, List.mem_append] at hi ⊢
    try dsimp only at hi
    simp only [Option.toList_none, List.not_mem_nil, or_false, false_or] at hi
    tauto

theorem inv_releaseWriteMid (s : RWState) (hd : Nat) (hinv : Inv s)
    (hw : s.activeWrite = some hd) :
    Inv { s with count := 0, activeWrite := none } := by
  obtain ⟨c1, c2, c3, n1, n2, n3, n4, n5, fr⟩ := hinv
  have hfacts := c3 (by rw [hw]; rfl)
  refine ⟨?_, ?_, ?_, n1, n2, n3, n4, n5, ?_⟩
  · intro h1 h2
    rw [hfacts.2.1, hfacts.2.2.1]
    simp
  · rw [hfacts.2.2.2]
    intro h
    exact absurd h (by simp)
  · intro h
    exact absurd h (by simp)
  · intro i hi
    apply fr
    clear * - hi
    simp only [queueIds, optIds, List.mem_append] at hi ⊢
    try dsimp only at hi
    simp only [Option.toList_none, List.not_mem_nil, or_false, false_or] at hi
    tauto

theorem inv_apply (s : RWState) (a : Action) (hinv : Inv s) :
    Inv (s.apply a).1 := by
  cases a with
  | read =>
      show Inv s.read.1
      unfold read
      rcases Decidable.em (canTakeReadLock s) with hc | hc
      · rw [if_pos hc]
        exact inv_takeReadLock s hinv hc
      · rw [if_neg hc]
        exact inv_enqueue_readers s hinv
  | upgradeableRead =>
      show Inv s.upgradeableRead.1
      unfold upgradeableRead
      rcases Decidable.em (canTakeUpgradeableReadLock s) with hc | hc
      · rw [if_pos hc]
        exact inv_takeUpgradeableReadLock s hinv hc
      · rw [if_neg hc]
        exact inv_enqueue_upgradeables s hinv
  | write =>
      show Inv s.write.1
      unfold write
      rcases Decidable.em (canTakeWriteLock s) with hc | hc
      · rw [if_pos hc]
        exact inv_takeWriteLock s hinv hc
      · rw [if_neg hc]
        exact inv_enqueue_writers s hinv
  | upgrade hd =>
      show Inv (s.upgrade hd).1
      unfold upgrade
      rcases Decidable.em (s.upgradeable = some hd) with hu | hu
      · rw [if_pos hu]
        rcases Decidable.em (canTakeUpgradeLock s) with hc | hc
        · rw [if_pos hc]
          exact inv_takeUpgradeLock s hinv hc
        · rw [if_neg hc]
          exact inv_enqueue_upgrades s hinv
      · rw [if_neg hu]
        exact hinv
  | releaseRead hd =>
      show Inv (s.releaseRead hd).1
      unfold releaseRead
      rcases Decidable.em (hd ∈ s.activeReads) with hm | hm
      · rw [if_pos hm]
        exact inv_processLockRequests _ (inv_releaseReadMid s hd hinv hm)
      · rw [if_neg hm]
        exact hinv
  | releaseUpgradeable hd =>
      show Inv (s.releaseUpgradeable hd).1
      unfold releaseUpgradeable
      rcases Decidable.em (s.upgradeable = some hd) with hu | hu
      · rw [if_pos hu]
        exact inv_processLockRequests _ (inv_releaseUpgradeableMid s hd hinv hu)
      · rw [if_neg hu]
        exact hinv
  | releaseUpgrade hd =>
      show Inv (s.releaseUpgrade hd).1
      unfold releaseUpgrade
      rcases Decidable.em (s.upgraded = some hd) with hg | hg
      · rw [if_pos hg]
        exact inv_processLockRequests _ (inv_releaseUpgradeMid s hd hinv hg)
      · rw [if_neg hg]
        exact hinv
  | releaseWrite hd =>
      show Inv (s.releaseWrite hd).1
      unfold releaseWrite
      rcases Decidable.em (s.activeWrite = some hd) with hw | hw
      · rw [if_pos hw]
        exact inv_processLockRequests _ (inv_releaseWriteMid s hd hinv hw)
      · rw [if_neg hw]
        exact hinv
  | cancel w =>
      show Inv (s.cancel w).1
      unfold cancel
      rcases Decidable.em (w ∈ s.readersQ ∨ w ∈ s.upgradeablesQ ∨
          w ∈ s.upgradesQ ∨ w ∈ s.writersQ) with hm | hm
      · rw [if_pos hm]
        exact inv_queues_sub s _ _ _ _ (List.erase_sublist w _)
          (List.erase_sublist w _) (List.erase_sublist w _)
          (List.erase_sublist w _) hinv
      · rw [if_neg hm]
        exact hinv

theorem inv_run (as : List Action) (s : RWState) (hinv : Inv s) :
    Inv (s.run as) := by
  induction as generalizing s with
  | nil => exact hinv
  | cons a rest ih => exact ih _ (inv_apply s a hinv)

theorem inv_init : Inv init := by decide

theorem inv_reachable (as : List Action) : Inv (RWState.run init as) :=
  inv_run as init inv_init

/-- Step 3 leaves the readers queue, the unreleased read handles, the
writers queue, the upgrades queue, the upgraded holder and the write
handle untouched, and never lowers the mint counter. -/
theorem purl_fields (s : RWState) :
    (processUpgradeableReadLockRequest s).readersQ = s.readersQ ∧
    (processUpgradeableReadLockRequest s).activeReads = s.activeReads ∧
    (processUpgradeableReadLockRequest s).writersQ = s.writersQ ∧
    (processUpgradeableReadLockRequest s).upgradesQ = s.upgradesQ ∧
    (processUpgradeableReadLockRequest s).upgraded = s.upgraded ∧
    (processUpgradeableReadLockRequest s).activeWrite = s.activeWrite ∧
    s.nextId ≤ (processUpgradeableReadLockRequest s).nextId := by
  rcases Decidable.em (canTakeUpgradeableReadLock s) with hc | hc
  · cases hq : s.upgradeablesQ with
    | nil =>
        rw [purl_miss s (Or.inr hq)]
        exact ⟨rfl, rfl, rfl, rfl, rfl, rfl, le_refl _⟩
    | cons w rest =>
        rw [purl_hit s w rest hc hq]
        exact ⟨rfl, rfl, rfl, rfl, rfl, rfl, Nat.le_succ _⟩
  · rw [purl_miss s (Or.inl hc)]
    exact ⟨rfl, rfl, rfl, rfl, rfl, rfl, le_refl _⟩

/-- Step 4 leaves the other three queues, the upgradeable and upgraded
holders and the write handle untouched, and never lowers the mint
counter. -/
theorem prlr_fields (s : RWState) :
    (processReadLockRequests s).upgradeablesQ = s.upgradeablesQ ∧
    (processReadLockRequests s).upgradesQ = s.upgradesQ ∧
    (processReadLockRequests s).writersQ = s.writersQ ∧
    (processReadLockRequests s).upgradeable = s.upgradeable ∧
    (processReadLockRequests s).upgraded = s.upgraded ∧
    (processReadLockRequests s).activeWrite = s.activeWrite ∧
    s.nextId ≤ (processReadLockRequests s).nextId := by
  rcases Decidable.em (canTakeReadLock s) with hc | hc
  · rw [prlr_hit s hc]
    exact ⟨rfl, rfl, rfl, rfl, rfl, rfl, Nat.le_add_right _ _⟩
  · rw [prlr_miss s hc]
    exact ⟨rfl, rfl, rfl, rfl, rfl, rfl, le_refl _⟩


theorem process_activeReads_aux (s : RWState) :
    ∃ k m, s.nextId ≤ m ∧
      (processReadLockRequests (processUpgradeableReadLockRequest s)).activeReads =
        s.activeReads ++ List.range' m k ∧
      s.nextId ≤
        (processReadLockRequests (processUpgradeableReadLockRequest s)).nextId := by
  have hp := purl_fields s
  rcases Decidable.em (canTakeReadLock (processUpgradeableReadLockRequest s))
    with hc | hc
  · rw [prlr_hit _ hc]
    refine ⟨(processUpgradeableReadLockRequest s).readersQ.length,
      (processUpgradeableReadLockRequest s).nextId, hp.2.2.2.2.2.2, ?_, ?_⟩
    · rw [hp.2.1]
    · exact hp.2.2.2.2.2.2.trans (Nat.le_add_right _ _)
  · rw [prlr_miss _ hc]
    exact ⟨0, s.nextId, le_refl _, by simp [hp.2.1], hp.2.2.2.2.2.2⟩

/-- Re-scheduling either keeps the upgraded holder or installs the
handle minted at the current counter (a woken upgrade waiter). -/
theorem process_upgraded (s : RWState) :
    (processLockRequests s).upgraded = s.upgraded ∨
    (processLockRequests s).upgraded = some s.nextId := by
  rcases Decidable.em (canTakeWriteLock s) with hcw | hcw
  · cases hq : s.writersQ with
    | cons w rest =>
        rw [plr_case1 s w rest hcw hq]
        exact Or.inl rfl
    | nil =>
        rcases Decidable.em (canTakeUpgradeLock s) with hcu | hcu
        · cases hq2 : s.upgradesQ with
          | cons w rest =>
              rw [plr_case2 s w rest (Or.inr hq) hcu hq2]
              exact Or.inr rfl
          | nil =>
              rw [plr_case3 s (Or.inr hq) (Or.inr hq2)]
              exact Or.inl ((prlr_fields _).2.2.2.2.1.trans (purl_fields s).2.2.2.2.1)
        · rw [plr_case3 s (Or.inr hq) (Or.inl hcu)]
          exact Or.inl ((prlr_fields _).2.2.2.2.1.trans (purl_fields s).2.2.2.2.1)
  · rcases Decidable.em (canTakeUpgradeLock s) with hcu | hcu
    · cases hq2 : s.upgradesQ with
      | cons w rest =>
          rw [plr_case2 s w rest (Or.inl hcw) hcu hq2]
          exact Or.inr rfl
      | nil =>
          rw [plr_case3 s (Or.inl hcw) (Or.inr hq2)]
          exact Or.inl ((prlr_fields _).2.2.2.2.1.trans (purl_fields s).2.2.2.2.1)
    · rw [plr_case3 s (Or.inl hcw) (Or.inl hcu)]
      exact Or.inl ((prlr_fields _).2.2.2.2.1.trans (purl_fields s).2.2.2.2.1)

/-- Re-scheduling either keeps the write-handle field or installs the
handle minted at the current counter (a woken writer). -/
theorem process_activeWrite (s : RWState) :
    (processLockRequests s).activeWrite = s.activeWrite ∨
    (processLockRequests s).activeWrite = some s.nextId := by
  rcases Decidable.em (canTakeWriteLock s) with hcw | hcw
  · cases hq : s.writersQ with
    | cons w rest =>
        rw [plr_case1 s w rest hcw hq]
        exact Or.inr rfl
    | nil =>
        rcases Decidable.em (canTakeUpgradeLock s) with hcu | hcu
        · cases hq2 : s.upgradesQ with
          | cons w rest =>
              rw [plr_case2 s w rest (Or.inr hq) hcu hq2]
              exact Or.inl rfl
          | nil =>
              rw [plr_case3 s (Or.inr hq) (Or.inr hq2)]
              exact Or.inl ((prlr_fields _).2.2.2.2.2.1.trans (purl_fields s).2.2.2.2.2.1)
        · rw [plr_case3 s (Or.inr hq) (Or.inl hcu)]
          exact Or.inl ((prlr_fields _).2.2.2.2.2.1.trans (purl_fields s).2.2.2.2.2.1)
  · rcases Decidable.em (canTakeUpgradeLock s) with hcu | hcu
    · cases hq2 : s.upgradesQ with
      | cons w rest =>
          rw [plr_case2 s w rest (Or.inl hcw) hcu hq2]
          exact Or.inl rfl
      | nil =>
          rw [plr_case3 s (Or.inl hcw) (Or.inr hq2)]
          exact Or.inl ((prlr_fields _).2.2.2.2.2.1.trans (purl_fields s).2.2.2.2.2.1)
    · rw [plr_case3 s (Or.inl hcw) (Or.inl hcu)]
      exact Or.inl ((prlr_fields _).2.2.2.2.2.1.trans (purl_fields s).2.2.2.2.2.1)

/-- Re-scheduling only ever appends a block of freshly minted handles
to the unreleased read handles, and never lowers the mint counter. -/
theorem process_activeReads (s : RWState) :
    ∃ k m, s.nextId ≤ m ∧
      (processLockRequests s).activeReads = s.activeReads ++ List.range' m k ∧
      s.nextId ≤ (processLockRequests s).nextId := by
  rcases Decidable.em (canTakeWriteLock s) with hcw | hcw
  · cases hq : s.writersQ with
    | cons w rest =>
        rw [plr_case1 s w rest hcw hq]
        exact ⟨0, s.nextId, le_refl _, by simp [takeWriteLock], Nat.le_succ _⟩
    | nil =>
        rcases Decidable.em (canTakeUpgradeLock s) with hcu | hcu
        · cases hq2 : s.upgradesQ with
          | cons w rest =>
              rw [plr_case2 s w rest (Or.inr hq) hcu hq2]
              exact ⟨0, s.nextId, le_refl _, by simp [takeUpgradeLock], Nat.le_succ _⟩
          | nil =>
              rw [plr_case3 s (Or.inr hq) (Or.inr hq2)]
              exact process_activeReads_aux s
        · rw [plr_case3 s (Or.inr hq) (Or.inl hcu)]
          exact process_activeReads_aux s
  · rcases Decidable.em (canTakeUpgradeLock s) with hcu | hcu
    · cases hq2 : s.upgradesQ with
      | cons w rest =>
          rw [plr_case2 s w rest (Or.inl hcw) hcu hq2]
          exact ⟨0, s.nextId, le_refl _, by simp [takeUpgradeLock], Nat.le_succ _⟩
      | nil =>
          rw [plr_case3 s (Or.inl hcw) (Or.inr hq2)]
          exact process_activeReads_aux s
    · rw [plr_case3 s (Or.inl hcw) (Or.inl hcu)]
      exact process_activeReads_aux s

/-- The state of the lock after a sequence of events starting from the
freshly constructed lock: the reachable states. -/
def reach (as : List Action) : RWState :=
  RWState.run init as

/-- Claim C3: in every reachable state of the ReaderWriterLock (at the
boundary of every acquire, release, upgrade, and scheduling
operation), if upgraded is present then upgradeable is present and
count equals -1. -/
theorem C3_upgraded_invariant (as : List Action)
    (h : (reach as).upgraded.isSome = true) :
    (reach as).upgradeable.isSome = true ∧ (reach as).count = -1 := by
  have hinv := inv_reachable as
  exact ⟨(hinv.2.1 h).1, (hinv.2.1 h).2.1⟩

/-- Witness for C3: after acquiring the upgradeable read lock and
upgrading it, the lock is in the upgraded state and the invariant
holds there. -/
theorem C3_upgraded_invariant_witness :
    (reach [Action.upgradeableRead, Action.upgrade 0]).upgraded.isSome = true ∧
    ((reach [Action.upgradeableRead, Action.upgrade 0]).upgradeable.isSome = true ∧
      (reach [Action.upgradeableRead, Action.upgrade 0]).count = -1) :=
  ⟨by decide,
   C3_upgraded_invariant [Action.upgradeableRead, Action.upgrade 0] (by decide)⟩

/-- Claim C4: releasing the upgradeable handle sets count to 0 when
count equals -1 (the implicit release of both roles while upgraded)
and otherwise decrements count by one; in both cases it clears both
upgraded and upgradeable and then re-enters scheduling. -/
theorem C4_release_upgradeable (s : RWState) (hd : Nat)
    (hu : s.upgradeable = some hd) :
    (s.releaseUpgradeable hd).2 = Outcome.released ∧
    (s.releaseUpgradeable hd).1 =
      processLockRequests
        { s with count := if s.count = -1 then 0 else s.count - 1,
                 upgraded := none, upgradeable := none } := by
  unfold releaseUpgradeable releaseUpgradeableReadLock
  rw [if_pos hu]
  exact ⟨rfl, rfl⟩

/-- Witness for C4 at a concrete reachable state holding the
upgradeable read lock. -/
theorem C4_release_upgradeable_witness :
    (reach [Action.upgradeableRead]).upgradeable = some 0 ∧
    (((reach [Action.upgradeableRead]).releaseUpgradeable 0).2 =
        Outcome.released ∧
      ((reach [Action.upgradeableRead]).releaseUpgradeable 0).1 =
        processLockRequests
          { reach [Action.upgradeableRead] with
              count := if (reach [Action.upgradeableRead]).count = -1 then 0
                else (reach [Action.upgradeableRead]).count - 1,
              upgraded := none, upgradeable := none }) :=
  ⟨by decide, C4_release_upgradeable (reach [Action.upgradeableRead]) 0 (by decide)⟩

/-- Counterexample to claim C1 as stated: re-scheduling does not
short-circuit after step 3 wakes an upgradeable waiter.  Reachable
execution: a writer holds the lock (handle 0), an upgradeable read
request (waiter 1) and a read request (waiter 2) queue behind it; the
writer's release wakes the queued upgradeable waiter (step 3,
installing fresh handle 3) and, in the same re-schedule, also wakes
the queued reader (step 4, minting fresh read handle 4). -/
theorem C1_counterexample :
    (reach [Action.write, Action.upgradeableRead, Action.read]).upgradeablesQ =
      [1] ∧
    (reach [Action.write, Action.upgradeableRead, Action.read]).readersQ = [2] ∧
    ((reach [Action.write, Action.upgradeableRead,
        Action.read]).releaseWrite 0).1.upgradeablesQ = [] ∧
    ((reach [Action.write, Action.upgradeableRead,
        Action.read]).releaseWrite 0).1.upgradeable = some 3 ∧
    ((reach [Action.write, Action.upgradeableRead,
        Action.read]).releaseWrite 0).1.readersQ = [] ∧
    ((reach [Action.write, Action.upgradeableRead,
        Action.read]).releaseWrite 0).1.activeReads = [4] := by
  decide

/-- Claim C1 as amended: re-scheduling processes the queues in the
order writer, upgrade, upgradeable, readers; it returns immediately
after step 1 wakes a writer or step 2 wakes an upgrade (no other queue
is touched and no other waiter is admitted), but step 3 does not
short-circuit: whenever steps 1 and 2 wake nobody, step 4 runs
unconditionally after step 3, so a re-schedule that wakes a queued
upgradeable waiter may also wake queued readers. -/
theorem C1_amended (s : RWState) :
    (canTakeWriteLock s → ∀ w rest, s.writersQ = w :: rest →
      processLockRequests s = (takeWriteLock { s with writersQ := rest }).1 ∧
      (processLockRequests s).readersQ = s.readersQ ∧
      (processLockRequests s).upgradeablesQ = s.upgradeablesQ ∧
      (processLockRequests s).upgradesQ = s.upgradesQ ∧
      (processLockRequests s).activeReads = s.activeReads ∧
      (processLockRequests s).upgradeable = s.upgradeable) ∧
    ((¬ canTakeWriteLock s ∨ s.writersQ = []) → canTakeUpgradeLock s →
      ∀ w rest, s.upgradesQ = w :: rest →
      processLockRequests s = (takeUpgradeLock { s with upgradesQ := rest }).1 ∧
      (processLockRequests s).readersQ = s.readersQ ∧
      (processLockRequests s).upgradeablesQ = s.upgradeablesQ ∧
      (processLockRequests s).writersQ = s.writersQ ∧
      (processLockRequests s).activeReads = s.activeReads) ∧
    ((¬ canTakeWriteLock s ∨ s.writersQ = []) →
      (¬ canTakeUpgradeLock s ∨ s.upgradesQ = []) →
      processLockRequests s =
        processReadLockRequests (processUpgradeableReadLockRequest s)) := by
  refine ⟨?_, ?_, fun h1 h2 => plr_case3 s h1 h2⟩
  · intro hc w rest hq
    rw [plr_case1 s w rest hc hq]
    exact ⟨rfl, rfl, rfl, rfl, rfl, rfl⟩
  · intro h1 hc w rest hq
    rw [plr_case2 s w rest h1 hc hq]
    exact ⟨rfl, rfl, rfl, rfl, rfl⟩

/-- Witness for the amended C1 at three concrete states: one where
step 1 wakes a writer, one where step 2 wakes an upgrade, and one
where steps 3 and 4 both run. -/
theorem C1_amended_witness :
    processLockRequests ⟨[], [], [], [7], none, none, 0, [], none, 8⟩ =
      (takeWriteLock ⟨[], [], [], [], none, none, 0, [], none, 8⟩).1 ∧
    processLockRequests ⟨[], [], [9], [], some 0, none, 1, [], none, 10⟩ =
      (takeUpgradeLock ⟨[], [], [], [], some 0, none, 1, [], none, 10⟩).1 ∧
    processLockRequests ⟨[2], [1], [], [], none, none, 0, [], none, 3⟩ =
      processReadLockRequests (processUpgradeableReadLockRequest
        ⟨[2], [1], [], [], none, none, 0, [], none, 3⟩) :=
  ⟨((C1_amended ⟨[], [], [], [7], none, none, 0, [], none, 8⟩).1
      (by decide) 7 [] rfl).1,
   ((C1_amended ⟨[], [], [9], [], some 0, none, 1, [], none, 10⟩).2.1
      (Or.inr rfl) (by decide) 9 [] rfl).1,
   (C1_amended ⟨[2], [1], [], [], none, none, 0, [], none, 3⟩).2.2
      (Or.inr rfl) (Or.inr rfl)⟩

/-- A concrete family of states for the writer-priority scenario: a
writer (handle hw) holds the lock, one writer waiter w and the readers
rs are queued, and the mint counter stands at n. -/
def writerScenario (rs : List Nat) (w hw n : Nat) : RWState :=
  ⟨rs, [], [], [w], none, none, -1, [], some hw, n⟩

theorem process_keeps_readers_34 (s : RWState) (hw : s.writersQ ≠ []) :
    (processReadLockRequests (processUpgradeableReadLockRequest s)).activeReads =
      s.activeReads ∧
    (processReadLockRequests (processUpgradeableReadLockRequest s)).readersQ =
      s.readersQ := by
  have hp := purl_fields s
  have hcr : ¬ canTakeReadLock (processUpgradeableReadLockRequest s) := by
    intro hc
    exact hw (by rw [← hp.2.2.1]; exact hc.2.1)
  rw [prlr_miss _ hcr]
  exact ⟨hp.2.1, hp.1⟩

/-- While a writer waiter is queued, re-scheduling admits no reader:
the unreleased read handles and the readers queue are untouched. -/
theorem process_keeps_readers_of_writers (s : RWState) (hw : s.writersQ ≠ []) :
    (processLockRequests s).activeReads = s.activeReads ∧
    (processLockRequests s).readersQ = s.readersQ := by
  rcases Decidable.em (canTakeWriteLock s) with hcw | hcw
  · obtain ⟨a, t, hq⟩ := List.exists_cons_of_ne_nil hw
    rw [plr_case1 s a t hcw hq]
    exact ⟨rfl, rfl⟩
  · rcases Decidable.em (canTakeUpgradeLock s) with hcu | hcu
    · cases hq2 : s.upgradesQ with
      | cons a t =>
          rw [plr_case2 s a t (Or.inl hcw) hcu hq2]
          exact ⟨rfl, rfl⟩
      | nil =>
          rw [plr_case3 s (Or.inl hcw) (Or.inr hq2)]
          exact process_keeps_readers_34 s hw
    · rw [plr_case3 s (Or.inl hcw) (Or.inl hcu)]
      exact process_keeps_readers_34 s hw

theorem writerScenario_step1 (rs : List Nat) (w hw n : Nat) :
    (writerScenario rs w hw n).releaseWrite hw =
      (⟨rs, [], [], [], none, none, -1, [], some n, n + 1⟩, Outcome.released) := by
  unfold writerScenario releaseWrite releaseWriteLock
  rw [if_pos rfl]
  show (processLockRequests ⟨rs, [], [], [w], none, none, 0, [], none, n⟩,
    Outcome.released) = _
  rw [plr_case1 ⟨rs, [], [], [w], none, none, 0, [], none, n⟩ w [] rfl rfl]
  rfl

theorem writerScenario_step2 (rs : List Nat) (n : Nat) :
    RWState.releaseWrite ⟨rs, [], [], [], none, none, -1, [], some n, n + 1⟩ n =
      (⟨[], [], [], [], none, none, (rs.length : Int),
        List.range' (n + 1) rs.length, none, n + 1 + rs.length⟩,
       Outcome.released) := by
  unfold releaseWrite releaseWriteLock
  rw [if_pos rfl]
  show (processLockRequests ⟨rs, [], [], [], none, none, 0, [], none, n + 1⟩,
    Outcome.released) = _
  rw [plr_case3 ⟨rs, [], [], [], none, none, 0, [], none, n + 1⟩ (Or.inr rfl)
    (Or.inl (fun hc => by simp [canTakeUpgradeLock] at hc))]
  rw [purl_miss _ (Or.inr rfl)]
  rw [prlr_hit _ ⟨by norm_num, rfl, rfl, rfl⟩]
  simp

/-- Claim C2: writer non-starvation.  First conjunct: while a writer
waiter is queued, a read request never acquires synchronously but is
parked on the readers queue.  Second conjunct: while a writer waiter
is queued, re-scheduling admits no reader (neither the unreleased read
handles nor the readers queue change).  Third conjunct: after a writer
release with readers and one writer queued, the queued writer is
admitted first (fresh write handle, census -1, readers still queued)
and the readers are admitted only after that writer's subsequent
release (all woken in a batch, census equal to their number). -/
theorem C2_writer_priority :
    (∀ s : RWState, s.writersQ ≠ [] →
      s.read = ({ s with readersQ := s.readersQ ++ [s.nextId],
                         nextId := s.nextId + 1 }, Outcome.queued s.nextId)) ∧
    (∀ s : RWState, s.writersQ ≠ [] →
      (processLockRequests s).activeReads = s.activeReads ∧
      (processLockRequests s).readersQ = s.readersQ) ∧
    (∀ (rs : List Nat) (w hw n : Nat),
      (writerScenario rs w hw n).releaseWrite hw =
        (⟨rs, [], [], [], none, none, -1, [], some n, n + 1⟩,
         Outcome.released) ∧
      RWState.releaseWrite ⟨rs, [], [], [], none, none, -1, [], some n, n + 1⟩ n =
        (⟨[], [], [], [], none, none, (rs.length : Int),
          List.range' (n + 1) rs.length, none, n + 1 + rs.length⟩,
         Outcome.released)) := by
  refine ⟨?_, fun s hw => process_keeps_readers_of_writers s hw,
    fun rs w hw n => ⟨writerScenario_step1 rs w hw n,
      writerScenario_step2 rs n⟩⟩
  intro s hw
  unfold read
  rw [if_neg]
  intro hc
  exact hw hc.2.1

/-- Witness for C2: with one writer active and another queued, a new
read request is parked; and the concrete two-release scenario admits
the queued writer first and the reader afterwards. -/
theorem C2_writer_priority_witness :
    (reach [Action.write, Action.write]).read =
      ({ reach [Action.write, Action.write] with
          readersQ := (reach [Action.write, Action.write]).readersQ ++
            [(reach [Action.write, Action.write]).nextId],
          nextId := (reach [Action.write, Action.write]).nextId + 1 },
        Outcome.queued (reach [Action.write, Action.write]).nextId) ∧
    (writerScenario [5] 1 0 2).releaseWrite 0 =
      (⟨[5], [], [], [], none, none, -1, [], some 2, 3⟩, Outcome.released) :=
  ⟨C2_writer_priority.1 (reach [Action.write, Action.write]) (by decide),
   (C2_writer_priority.2.2 [5] 1 0 2).1⟩

/-- Claim C5: a waiter cancelled while still queued is removed from
its queue and its deferred rejects with the cancellation error; no
other field of the lock changes, the cancelled waiter is on no queue
afterwards (so no release can wake it), and every other waiter stays
on its queue, so a subsequent release re-enters scheduling over
exactly the remaining waiters. -/
theorem C5_cancellation (as : List Action) (w : Nat)
    (hq : w ∈ (reach as).readersQ ∨ w ∈ (reach as).upgradeablesQ ∨
          w ∈ (reach as).upgradesQ ∨ w ∈ (reach as).writersQ) :
    ((reach as).cancel w).2 = Outcome.cancelledWaiter ∧
    ((reach as).cancel w).1 =
      { reach as with
          readersQ := (reach as).readersQ.erase w,
          upgradeablesQ := (reach as).upgradeablesQ.erase w,
          upgradesQ := (reach as).upgradesQ.erase w,
          writersQ := (reach as).writersQ.erase w } ∧
    w ∉ ((reach as).cancel w).1.readersQ ∧
    w ∉ ((reach as).cancel w).1.upgradeablesQ ∧
    w ∉ ((reach as).cancel w).1.upgradesQ ∧
    w ∉ ((reach as).cancel w).1.writersQ ∧
    (∀ x ∈ (reach as).readersQ, x ≠ w → x ∈ ((reach as).cancel w).1.readersQ) ∧
    (∀ x ∈ (reach as).upgradeablesQ, x ≠ w →
      x ∈ ((reach as).cancel w).1.upgradeablesQ) ∧
    (∀ x ∈ (reach as).upgradesQ, x ≠ w → x ∈ ((reach as).cancel w).1.upgradesQ) ∧
    (∀ x ∈ (reach as).writersQ, x ≠ w → x ∈ ((reach as).cancel w).1.writersQ) ∧
    (∀ x ∈ ((reach as).cancel w).1.readersQ, x ∈ (reach as).readersQ) ∧
    (∀ x ∈ ((reach as).cancel w).1.upgradeablesQ, x ∈ (reach as).upgradeablesQ) ∧
    (∀ x ∈ ((reach as).cancel w).1.upgradesQ, x ∈ (reach as).upgradesQ) ∧
    (∀ x ∈ ((reach as).cancel w).1.writersQ, x ∈ (reach as).writersQ) := by
  obtain ⟨-, -, -, -, n2, n3, n4, n5, -⟩ := inv_reachable as
  unfold reach at *
  unfold cancel
  rw [if_pos hq]
  refine ⟨rfl, rfl, n2.not_mem_erase, n3.not_mem_erase, n4.not_mem_erase,
    n5.not_mem_erase, ?_, ?_, ?_, ?_, ?_, ?_, ?_, ?_⟩
  · exact fun x hx hne => (List.mem_erase_of_ne hne).mpr hx
  · exact fun x hx hne => (List.mem_erase_of_ne hne).mpr hx
  · exact fun x hx hne => (List.mem_erase_of_ne hne).mpr hx
  · exact fun x hx hne => (List.mem_erase_of_ne hne).mpr hx
  · exact fun x hx => (List.erase_sublist w _).subset hx
  · exact fun x hx => (List.erase_sublist w _).subset hx
  · exact fun x hx => (List.erase_sublist w _).subset hx
  · exact fun x hx => (List.erase_sublist w _).subset hx

/-- Witness for C5: with a writer active and two readers queued,
cancelling the first queued reader rejects it, removes exactly it, and
leaves the second reader queued. -/
theorem C5_cancellation_witness :
    ((reach [Action.write, Action.read, Action.read]).cancel 1).2 =
      Outcome.cancelledWaiter ∧
    1 ∉ ((reach [Action.write, Action.read, Action.read]).cancel 1).1.readersQ ∧
    2 ∈ ((reach [Action.write, Action.read, Action.read]).cancel 1).1.readersQ :=
  ⟨(C5_cancellation [Action.write, Action.read, Action.read] 1 (by decide)).1,
   (C5_cancellation [Action.write, Action.read, Action.read] 1 (by decide)).2.2.1,
   (C5_cancellation [Action.write, Action.read, Action.read] 1
      (by decide)).2.2.2.2.2.2.1 2 (by decide) (by decide)⟩

/-- Claim C9: if the upgradeable handle is released while the lock is
upgraded, the previously returned upgraded-writer handle is
invalidated: a subsequent release on that handle raises the
lock-already-released error and changes nothing. -/
theorem C9_upgraded_invalidated (as : List Action) (hu hw : Nat)
    (h1 : (reach as).upgradeable = some hu)
    (h2 : (reach as).upgraded = some hw) :
    (((reach as).releaseUpgradeable hu).1.releaseUpgrade hw).2 =
      Outcome.lockError ∧
    (((reach as).releaseUpgradeable hu).1.releaseUpgrade hw).1 =
      ((reach as).releaseUpgradeable hu).1 := by
  have hinv := inv_reachable as
  have hfr : hw < (reach as).nextId :=
    (fr_parts _ hinv.2.2.2.2.2.2.2.2).2.2.2.2.2.2.1 hw h2
  have hne : (releaseUpgradeableReadLock (reach as)).upgraded ≠ some hw := by
    unfold releaseUpgradeableReadLock
    rcases process_upgraded { reach as with
        count := if (reach as).count = -1 then 0 else (reach as).count - 1,
        upgraded := none, upgradeable := none } with h | h
    · rw [h]
      simp
    · rw [h]
      intro hcon
      injection hcon with heq
      dsimp only at heq
      omega
  unfold releaseUpgradeable
  rw [if_pos h1]
  unfold releaseUpgrade
  rw [if_neg hne]
  exact ⟨rfl, rfl⟩

/-- Witness for C9: upgrade the upgradeable handle 0 to the upgraded
handle 1, release the upgradeable handle while upgraded, then attempt
to release the stale upgraded handle. -/
theorem C9_upgraded_invalidated_witness :
    (reach [Action.upgradeableRead, Action.upgrade 0]).upgradeable = some 0 ∧
    (reach [Action.upgradeableRead, Action.upgrade 0]).upgraded = some 1 ∧
    ((((reach [Action.upgradeableRead, Action.upgrade 0]).releaseUpgradeable
        0).1.releaseUpgrade 1).2 = Outcome.lockError ∧
      (((reach [Action.upgradeableRead, Action.upgrade 0]).releaseUpgradeable
        0).1.releaseUpgrade 1).1 =
        ((reach [Action.upgradeableRead, Action.upgrade 0]).releaseUpgradeable
          0).1) :=
  ⟨by decide, by decide,
   C9_upgraded_invalidated [Action.upgradeableRead, Action.upgrade 0] 0 1
     (by decide) (by decide)⟩

theorem upgrade_sync (t : RWState) (hu : Nat) (ht1 : t.upgradeable = some hu)
    (ht2 : t.count = 1) (ht3 : t.upgraded = none) :
    (t.upgrade hu).2 = Outcome.granted t.nextId ∧
    (t.upgrade hu).1.count = -1 ∧
    (t.upgrade hu).1.upgraded = some t.nextId ∧
    (t.upgrade hu).1.upgradeable = some hu := by
  have hcan : canTakeUpgradeLock t := ⟨ht2, by rw [ht1]; rfl, ht3⟩
  unfold upgrade
  rw [if_pos ht1, if_pos hcan]
  exact ⟨rfl, rfl, rfl, ht1⟩

/-- Claim C10: upgrade is repeatable.  Releasing an upgrade handle
restores count to 1 and clears upgraded while leaving the current
upgradeable handle in place; with no competing waiter queued the
upgradeable holder is again the sole holder, and a subsequent upgrade
call on the same upgradeable handle acquires synchronously, returning
to the upgraded state (count -1, a fresh upgraded handle, the same
upgradeable handle). -/
theorem C10_upgrade_roundtrip (s : RWState) (hu hw : Nat)
    (h1 : s.upgradeable = some hu) (h2 : s.upgraded = some hw)
    (hq1 : s.upgradesQ = []) (hq2 : s.writersQ = [])
    (hq3 : s.readersQ = []) :
    (s.releaseUpgrade hw).2 = Outcome.released ∧
    (s.releaseUpgrade hw).1.count = 1 ∧
    (s.releaseUpgrade hw).1.upgraded = none ∧
    (s.releaseUpgrade hw).1.upgradeable = some hu ∧
    ((s.releaseUpgrade hw).1.upgrade hu).2 =
      Outcome.granted (s.releaseUpgrade hw).1.nextId ∧
    ((s.releaseUpgrade hw).1.upgrade hu).1.count = -1 ∧
    ((s.releaseUpgrade hw).1.upgrade hu).1.upgraded =
      some (s.releaseUpgrade hw).1.nextId ∧
    ((s.releaseUpgrade hw).1.upgrade hu).1.upgradeable = some hu := by
  obtain ⟨rq, uq, gq, wq, u, g, c, aR, aW, n⟩ := s
  dsimp only at h1 h2 hq1 hq2 hq3
  subst h1 h2 hq1 hq2 hq3
  have e : RWState.releaseUpgrade
      ⟨[], uq, [], [], some hu, some hw, c, aR, aW, n⟩ hw =
      (⟨[], uq, [], [], some hu, none, 1, aR, aW, n⟩, Outcome.released) := by
    unfold releaseUpgrade releaseUpgradeLock
    rw [if_pos rfl]
    rw [plr_case3 _ (Or.inl (fun hc => by simp [canTakeWriteLock] at hc))
      (Or.inr rfl)]
    rw [purl_miss _
      (Or.inl (fun hc => by simp [canTakeUpgradeableReadLock] at hc))]
    rw [prlr_hit _ ⟨by show (0 : Int) ≤ 1; norm_num, rfl, rfl, rfl⟩]
    simp
  rw [e]
  obtain ⟨u1, u2, u3, u4⟩ :=
    upgrade_sync ⟨[], uq, [], [], some hu, none, 1, aR, aW, n⟩ hu rfl rfl rfl
  exact ⟨rfl, rfl, rfl, rfl, u1, u2, u3, u4⟩

/-- Witness for C10: upgrade handle 0, release the upgrade handle 1,
and upgrade again synchronously. -/
theorem C10_upgrade_roundtrip_witness :
    (reach [Action.upgradeableRead, Action.upgrade 0]).upgradeable = some 0 ∧
    (reach [Action.upgradeableRead, Action.upgrade 0]).upgraded = some 1 ∧
    (((reach [Action.upgradeableRead, Action.upgrade 0]).releaseUpgrade 1).2 =
        Outcome.released ∧
      ((reach [Action.upgradeableRead, Action.upgrade 0]).releaseUpgrade
        1).1.count = 1 ∧
      ((reach [Action.upgradeableRead, Action.upgrade 0]).releaseUpgrade
        1).1.upgraded = none ∧
      ((reach [Action.upgradeableRead, Action.upgrade 0]).releaseUpgrade
        1).1.upgradeable = some 0 ∧
      (((reach [Action.upgradeableRead, Action.upgrade 0]).releaseUpgrade
        1).1.upgrade 0).2 = Outcome.granted ((reach [Action.upgradeableRead,
          Action.upgrade 0]).releaseUpgrade 1).1.nextId ∧
      (((reach [Action.upgradeableRead, Action.upgrade 0]).releaseUpgrade
        1).1.upgrade 0).1.count = -1 ∧
      (((reach [Action.upgradeableRead, Action.upgrade 0]).releaseUpgrade
        1).1.upgrade 0).1.upgraded = some ((reach [Action.upgradeableRead,
          Action.upgrade 0]).releaseUpgrade 1).1.nextId ∧
      (((reach [Action.upgradeableRead, Action.upgrade 0]).releaseUpgrade
        1).1.upgrade 0).1.upgradeable = some 0) :=
  ⟨by decide, by decide,
   C10_upgrade_roundtrip (reach [Action.upgradeableRead, Action.upgrade 0]) 0 1
     (by decide) (by decide) (by decide) (by decide) (by decide)⟩

theorem releaseRead_hit (s : RWState) (hd : Nat) (h : hd ∈ s.activeReads) :
    s.releaseRead hd =
      (releaseReadLock { s with activeReads := s.activeReads.erase hd },
       Outcome.released) := by
  unfold releaseRead
  rw [if_pos h]

theorem releaseRead_missE (s : RWState) (hd : Nat) (h : hd ∉ s.activeReads) :
    s.releaseRead hd = (s, Outcome.lockError) := by
  unfold releaseRead
  rw [if_neg h]

theorem releaseWrite_hit (s : RWState) (hd : Nat) (h : s.activeWrite = some hd) :
    s.releaseWrite hd =
      (releaseWriteLock { s with activeWrite := none }, Outcome.released) := by
  unfold releaseWrite
  rw [if_pos h]

theorem releaseWrite_missE (s : RWState) (hd : Nat)
    (h : s.activeWrite ≠ some hd) :
    s.releaseWrite hd = (s, Outcome.lockError) := by
  unfold releaseWrite
  rw [if_neg h]

theorem releaseUpgradeable_hit (s : RWState) (hd : Nat)
    (h : s.upgradeable = some hd) :
    s.releaseUpgradeable hd =
      (releaseUpgradeableReadLock s, Outcome.released) := by
  unfold releaseUpgradeable
  rw [if_pos h]

theorem releaseUpgradeable_missE (s : RWState) (hd : Nat)
    (h : s.upgradeable ≠ some hd) :
    s.releaseUpgradeable hd = (s, Outcome.lockError) := by
  unfold releaseUpgradeable
  rw [if_neg h]

theorem releaseUpgrade_hit (s : RWState) (hd : Nat) (h : s.upgraded = some hd) :
    s.releaseUpgrade hd = (releaseUpgradeLock s, Outcome.released) := by
  unfold releaseUpgrade
  rw [if_pos h]

theorem releaseUpgrade_missE (s : RWState) (hd : Nat)
    (h : s.upgraded ≠ some hd) :
    s.releaseUpgrade hd = (s, Outcome.lockError) := by
  unfold releaseUpgrade
  rw [if_neg h]

theorem process_nextId_le (s : RWState) :
    s.nextId ≤ (processLockRequests s).nextId := by
  obtain ⟨k, m, -, -, h⟩ := process_activeReads s
  exact h

theorem apply_nextId_le (s : RWState) (a : Action) :
    s.nextId ≤ (s.apply a).1.nextId := by
  cases a with
  | read =>
      show s.nextId ≤ s.read.1.nextId
      unfold read
      rcases Decidable.em (canTakeReadLock s) with hc | hc
      · rw [if_pos hc]
        exact Nat.le_succ _
      · rw [if_neg hc]
        exact Nat.le_succ _
  | upgradeableRead =>
      show s.nextId ≤ s.upgradeableRead.1.nextId
      unfold upgradeableRead
      rcases Decidable.em (canTakeUpgradeableReadLock s) with hc | hc
      · rw [if_pos hc]
        exact Nat.le_succ _
      · rw [if_neg hc]
        exact Nat.le_succ _
  | write =>
      show s.nextId ≤ s.write.1.nextId
      unfold write
      rcases Decidable.em (canTakeWriteLock s) with hc | hc
      · rw [if_pos hc]
        exact Nat.le_succ _
      · rw [if_neg hc]
        exact Nat.le_succ _
  | upgrade hd =>
      show s.nextId ≤ (s.upgrade hd).1.nextId
      unfold upgrade
      rcases Decidable.em (s.upgradeable = some hd) with hu | hu
      · rw [if_pos hu]
        rcases Decidable.em (canTakeUpgradeLock s) with hc | hc
        · rw [if_pos hc]
          exact Nat.le_succ _
        · rw [if_neg hc]
          exact Nat.le_succ _
      · rw [if_neg hu]
  | releaseRead hd =>
      show s.nextId ≤ (s.releaseRead hd).1.nextId
      rcases Decidable.em (hd ∈ s.activeReads) with hm | hm
      · rw [releaseRead_hit s hd hm]
        show s.nextId ≤ (processLockRequests
          { s with activeReads := s.activeReads.erase hd,
                   count := s.count - 1 }).nextId
        exact process_nextId_le
          { s with activeReads := s.activeReads.erase hd,
                   count := s.count - 1 }
      · rw [releaseRead_missE s hd hm]
  | releaseUpgradeable hd =>
      show s.nextId ≤ (s.releaseUpgradeable hd).1.nextId
      rcases Decidable.em (s.upgradeable = some hd) with hm | hm
      · rw [releaseUpgradeable_hit s hd hm]
        show s.nextId ≤ (processLockRequests
          { s with count := if s.count = -1 then 0 else s.count - 1,
                   upgraded := none, upgradeable := none }).nextId
        exact process_nextId_le
          { s with count := if s.count = -1 then 0 else s.count - 1,
                   upgraded := none, upgradeable := none }
      · rw [releaseUpgradeable_missE s hd hm]
  | releaseUpgrade hd =>
      show s.nextId ≤ (s.releaseUpgrade hd).1.nextId
      rcases Decidable.em (s.upgraded = some hd) with hm | hm
      · rw [releaseUpgrade_hit s hd hm]
        show s.nextId ≤ (processLockRequests
          { s with upgraded := none, count := 1 }).nextId
        exact process_nextId_le { s with upgraded := none, count := 1 }
      · rw [releaseUpgrade_missE s hd hm]
  | releaseWrite hd =>
      show s.nextId ≤ (s.releaseWrite hd).1.nextId
      rcases Decidable.em (s.activeWrite = some hd) with hm | hm
      · rw [releaseWrite_hit s hd hm]
        show s.nextId ≤ (processLockRequests
          { s with activeWrite := none, count := 0 }).nextId
        exact process_nextId_le { s with activeWrite := none, count := 0 }
      · rw [releaseWrite_missE s hd hm]
  | cancel w =>
      show s.nextId ≤ (s.cancel w).1.nextId
      unfold cancel
      rcases Decidable.em (w ∈ s.readersQ ∨ w ∈ s.upgradeablesQ ∨
          w ∈ s.upgradesQ ∨ w ∈ s.writersQ) with hm | hm
      · rw [if_pos hm]
      · rw [if_neg hm]

theorem dead_notmem_process (t : RWState) (hd : Nat) (h1 : hd < t.nextId)
    (h2 : hd ∉ t.activeReads) : hd ∉ (processLockRequests t).activeReads := by
  obtain ⟨k, m, hm1, hm2, -⟩ := process_activeReads t
  rw [hm2]
  intro hmem
  rcases List.mem_append.mp hmem with h | h
  · exact h2 h
  · have hge := (List.mem_range'_1.mp h).1
    omega

theorem mem_process_activeReads (t : RWState) (hd : Nat)
    (h : hd ∈ t.activeReads) : hd ∈ (processLockRequests t).activeReads := by
  obtain ⟨k, m, -, hm2, -⟩ := process_activeReads t
  rw [hm2]
  exact List.mem_append_left _ h

theorem deadWrite_process (t : RWState) (hd : Nat) (h1 : hd < t.nextId)
    (h2 : t.activeWrite ≠ some hd) :
    (processLockRequests t).activeWrite ≠ some hd := by
  rcases process_activeWrite t with h | h
  · rw [h]
    exact h2
  · rw [h]
    intro hcon
    injection hcon with heq
    omega

theorem deadRead_apply (s : RWState) (a : Action) (hd : Nat)
    (h1 : hd < s.nextId) (h2 : hd ∉ s.activeReads) :
    hd < (s.apply a).1.nextId ∧ hd ∉ (s.apply a).1.activeReads := by
  have hle := apply_nextId_le s a
  refine ⟨by omega, ?_⟩
  cases a with
  | read =>
      show hd ∉ s.read.1.activeReads
      unfold read
      rcases Decidable.em (canTakeReadLock s) with hc | hc
      · rw [if_pos hc]
        simp only [takeReadLock]
        intro hmem
        rcases List.mem_append.mp hmem with h | h
        · exact h2 h
        · simp at h
          omega
      · rw [if_neg hc]
        exact h2
  | upgradeableRead =>
      show hd ∉ s.upgradeableRead.1.activeReads
      unfold upgradeableRead
      rcases Decidable.em (canTakeUpgradeableReadLock s) with hc | hc
      · rw [if_pos hc]
        exact h2
      · rw [if_neg hc]
        exact h2
  | write =>
      show hd ∉ s.write.1.activeReads
      unfold write
      rcases Decidable.em (canTakeWriteLock s) with hc | hc
      · rw [if_pos hc]
        exact h2
      · rw [if_neg hc]
        exact h2
  | upgrade hd2 =>
      show hd ∉ (s.upgrade hd2).1.activeReads
      unfold upgrade
      rcases Decidable.em (s.upgradeable = some hd2) with hu | hu
      · rw [if_pos hu]
        rcases Decidable.em (canTakeUpgradeLock s) with hc | hc
        · rw [if_pos hc]
          exact h2
        · rw [if_neg hc]
          exact h2
      · rw [if_neg hu]
        exact h2
  | releaseRead hd2 =>
      show hd ∉ (s.releaseRead hd2).1.activeReads
      unfold releaseRead
      rcases Decidable.em (hd2 ∈ s.activeReads) with hm | hm
      · rw [if_pos hm]
        show hd ∉ (processLockRequests
          { s with activeReads := s.activeReads.erase hd2,
                   count := s.count - 1 }).activeReads
        exact dead_notmem_process _ hd h1
          (fun hmem => h2 ((List.erase_sublist hd2 _).subset hmem))
      · rw [if_neg hm]
        exact h2
  | releaseUpgradeable hd2 =>
      show hd ∉ (s.releaseUpgradeable hd2).1.activeReads
      unfold releaseUpgradeable
      rcases Decidable.em (s.upgradeable = some hd2) with hm | hm
      · rw [if_pos hm]
        show hd ∉ (processLockRequests
          { s with count := if s.count = -1 then 0 else s.count - 1,
                   upgraded := none, upgradeable := none }).activeReads
        exact dead_notmem_process _ hd h1 h2
      · rw [if_neg hm]
        exact h2
  | releaseUpgrade hd2 =>
      show hd ∉ (s.releaseUpgrade hd2).1.activeReads
      unfold releaseUpgrade
      rcases Decidable.em (s.upgraded = some hd2) with hm | hm
      · rw [if_pos hm]
        show hd ∉ (processLockRequests
          { s with upgraded := none, count := 1 }).activeReads
        exact dead_notmem_process _ hd h1 h2
      · rw [if_neg hm]
        exact h2
  | releaseWrite hd2 =>
      show hd ∉ (s.releaseWrite hd2).1.activeReads
      unfold releaseWrite
      rcases Decidable.em (s.activeWrite = some hd2) with hm | hm
      · rw [if_pos hm]
        show hd ∉ (processLockRequests
          { s with activeWrite := none, count := 0 }).activeReads
        exact dead_notmem_process _ hd h1 h2
      · rw [if_neg hm]
        exact h2
  | cancel w =>
      show hd ∉ (s.cancel w).1.activeReads
      unfold cancel
      rcases Decidable.em (w ∈ s.readersQ ∨ w ∈ s.upgradeablesQ ∨
          w ∈ s.upgradesQ ∨ w ∈ s.writersQ) with hm | hm
      · rw [if_pos hm]
        exact h2
      · rw [if_neg hm]
        exact h2

theorem liveRead_apply (s : RWState) (a : Action) (hd : Nat)
    (h : hd ∈ s.activeReads) (hne : a ≠ Action.releaseRead hd) :
    hd ∈ (s.apply a).1.activeReads := by
  cases a with
  | read =>
      show hd ∈ s.read.1.activeReads
      unfold read
      rcases Decidable.em (canTakeReadLock s) with hc | hc
      · rw [if_pos hc]
        exact List.mem_append_left _ h
      · rw [if_neg hc]
        exact h
  | upgradeableRead =>
      show hd ∈ s.upgradeableRead.1.activeReads
      unfold upgradeableRead
      rcases Decidable.em (canTakeUpgradeableReadLock s) with hc | hc
      · rw [if_pos hc]
        exact h
      · rw [if_neg hc]
        exact h
  | write =>
      show hd ∈ s.write.1.activeReads
      unfold write
      rcases Decidable.em (canTakeWriteLock s) with hc | hc
      · rw [if_pos hc]
        exact h
      · rw [if_neg hc]
        exact h
  | upgrade hd2 =>
      show hd ∈ (s.upgrade hd2).1.activeReads
      unfold upgrade
      rcases Decidable.em (s.upgradeable = some hd2) with hu | hu
      · rw [if_pos hu]
        rcases Decidable.em (canTakeUpgradeLock s) with hc | hc
        · rw [if_pos hc]
          exact h
        · rw [if_neg hc]
          exact h
      · rw [if_neg hu]
        exact h
  | releaseRead hd2 =>
      show hd ∈ (s.releaseRead hd2).1.activeReads
      have hdne : hd ≠ hd2 := fun he => hne (by rw [he])
      unfold releaseRead
      rcases Decidable.em (hd2 ∈ s.activeReads) with hm | hm
      · rw [if_pos hm]
        show hd ∈ (processLockRequests
          { s with activeReads := s.activeReads.erase hd2,
                   count := s.count - 1 }).activeReads
        exact mem_process_activeReads _ hd ((List.mem_erase_of_ne hdne).mpr h)
      · rw [if_neg hm]
        exact h
  | releaseUpgradeable hd2 =>
      show hd ∈ (s.releaseUpgradeable hd2).1.activeReads
      unfold releaseUpgradeable
      rcases Decidable.em (s.upgradeable = some hd2) with hm | hm
      · rw [if_pos hm]
        show hd ∈ (processLockRequests
          { s with count := if s.count = -1 then 0 else s.count - 1,
                   upgraded := none, upgradeable := none }).activeReads
        exact mem_process_activeReads _ hd h
      · rw [if_neg hm]
        exact h
  | releaseUpgrade hd2 =>
      show hd ∈ (s.releaseUpgrade hd2).1.activeReads
      unfold releaseUpgrade
      rcases Decidable.em (s.upgraded = some hd2) with hm | hm
      · rw [if_pos hm]
        show hd ∈ (processLockRequests
          { s with upgraded := none, count := 1 }).activeReads
        exact mem_process_activeReads _ hd h
      · rw [if_neg hm]
        exact h
  | releaseWrite hd2 =>
      show hd ∈ (s.releaseWrite hd2).1.activeReads
      unfold releaseWrite
      rcases Decidable.em (s.activeWrite = some hd2) with hm | hm
      · rw [if_pos hm]
        show hd ∈ (processLockRequests
          { s with activeWrite := none, count := 0 }).activeReads
        exact mem_process_activeReads _ hd h
      · rw [if_neg hm]
        exact h
  | cancel w =>
      show hd ∈ (s.cancel w).1.activeReads
      unfold cancel
      rcases Decidable.em (w ∈ s.readersQ ∨ w ∈ s.upgradeablesQ ∨
          w ∈ s.upgradesQ ∨ w ∈ s.writersQ) with hm | hm
      · rw [if_pos hm]
        exact h
      · rw [if_neg hm]
        exact h

theorem deadRead_run (bs : List Action) (s : RWState) (hd : Nat)
    (h1 : hd < s.nextId) (h2 : hd ∉ s.activeReads) :
    hd < (s.run bs).nextId ∧ hd ∉ (s.run bs).activeReads := by
  induction bs generalizing s with
  | nil => exact ⟨h1, h2⟩
  | cons b rest ih =>
      obtain ⟨g1, g2⟩ := deadRead_apply s b hd h1 h2
      exact ih _ g1 g2

theorem liveRead_run (bs : List Action) (s : RWState) (hd : Nat)
    (h : hd ∈ s.activeReads) (hall : ∀ a ∈ bs, a ≠ Action.releaseRead hd) :
    hd ∈ (s.run bs).activeReads := by
  induction bs generalizing s with
  | nil => exact h
  | cons b rest ih =>
      exact ih _ (liveRead_apply s b hd h (hall b (List.mem_cons_self b rest)))
        (fun a ha => hall a (List.mem_cons_of_mem b ha))

theorem liveWrite_apply (s : RWState) (a : Action) (hd : Nat) (hinv : Inv s)
    (hw : s.activeWrite = some hd) (hne : a ≠ Action.releaseWrite hd) :
    (s.apply a).1.activeWrite = some hd := by
  have hfacts := hinv.2.2.1 (by rw [hw]; rfl)
  cases a with
  | read =>
      show s.read.1.activeWrite = some hd
      unfold read
      rw [if_neg (fun hc => by
        have hc1 := hc.1
        rw [hfacts.1] at hc1
        exact absurd hc1 (by norm_num))]
      exact hw
  | upgradeableRead =>
      show s.upgradeableRead.1.activeWrite = some hd
      unfold upgradeableRead
      rw [if_neg (fun hc => by
        have hc1 := hc.1
        rw [hfacts.1] at hc1
        exact absurd hc1 (by norm_num))]
      exact hw
  | write =>
      show s.write.1.activeWrite = some hd
      unfold write
      rw [if_neg (fun hc => by
        have hc1 : s.count = 0 := hc
        rw [hfacts.1] at hc1
        exact absurd hc1 (by norm_num))]
      exact hw
  | upgrade hd2 =>
      show (s.upgrade hd2).1.activeWrite = some hd
      unfold upgrade
      rw [if_neg (fun hc => by
        rw [hfacts.2.2.1] at hc
        exact Option.noConfusion hc)]
      exact hw
  | releaseRead hd2 =>
      show (s.releaseRead hd2).1.activeWrite = some hd
      unfold releaseRead
      rw [if_neg (fun hm => by
        rw [hfacts.2.1] at hm
        exact absurd hm (List.not_mem_nil hd2))]
      exact hw
  | releaseUpgradeable hd2 =>
      show (s.releaseUpgradeable hd2).1.activeWrite = some hd
      unfold releaseUpgradeable
      rw [if_neg (fun hm => by
        rw [hfacts.2.2.1] at hm
        exact Option.noConfusion hm)]
      exact hw
  | releaseUpgrade hd2 =>
      show (s.releaseUpgrade hd2).1.activeWrite = some hd
      unfold releaseUpgrade
      rw [if_neg (fun hm => by
        rw [hfacts.2.2.2] at hm
        exact Option.noConfusion hm)]
      exact hw
  | releaseWrite hd2 =>
      show (s.releaseWrite hd2).1.activeWrite = some hd
      have hdne : hd2 ≠ hd := fun he => hne (by rw [he])
      unfold releaseWrite
      rw [if_neg (fun hc => by
        rw [hw] at hc
        exact hdne (Option.some.inj hc).symm)]
      exact hw
  | cancel w =>
      show (s.cancel w).1.activeWrite = some hd
      unfold cancel
      rcases Decidable.em (w ∈ s.readersQ ∨ w ∈ s.upgradeablesQ ∨
          w ∈ s.upgradesQ ∨ w ∈ s.writersQ) with hm | hm
      · rw [if_pos hm]
        exact hw
      · rw [if_neg hm]
        exact hw

theorem deadWrite_apply (s : RWState) (a : Action) (hd : Nat)
    (h1 : hd < s.nextId) (h2 : s.activeWrite ≠ some hd) :
    hd < (s.apply a).1.nextId ∧ (s.apply a).1.activeWrite ≠ some hd := by
  have hle := apply_nextId_le s a
  refine ⟨by omega, ?_⟩
  cases a with
  | read =>
      show s.read.1.activeWrite ≠ some hd
      unfold read
      rcases Decidable.em (canTakeReadLock s) with hc | hc
      · rw [if_pos hc]
        exact h2
      · rw [if_neg hc]
        exact h2
  | upgradeableRead =>
      show s.upgradeableRead.1.activeWrite ≠ some hd
      unfold upgradeableRead
      rcases Decidable.em (canTakeUpgradeableReadLock s) with hc | hc
      · rw [if_pos hc]
        exact h2
      · rw [if_neg hc]
        exact h2
  | write =>
      show s.write.1.activeWrite ≠ some hd
      unfold write
      rcases Decidable.em (canTakeWriteLock s) with hc | hc
      · rw [if_pos hc]
        intro hcon
        injection hcon with heq
        omega
      · rw [if_neg hc]
        exact h2
  | upgrade hd2 =>
      show (s.upgrade hd2).1.activeWrite ≠ some hd
      unfold upgrade
      rcases Decidable.em (s.upgradeable = some hd2) with hu | hu
      · rw [if_pos hu]
        rcases Decidable.em (canTakeUpgradeLock s) with hc | hc
        · rw [if_pos hc]
          exact h2
        · rw [if_neg hc]
          exact h2
      · rw [if_neg hu]
        exact h2
  | releaseRead hd2 =>
      show (s.releaseRead hd2).1.activeWrite ≠ some hd
      unfold releaseRead
      rcases Decidable.em (hd2 ∈ s.activeReads) with hm | hm
      · rw [if_pos hm]
        show (processLockRequests
          { s with activeReads := s.activeReads.erase hd2,
                   count := s.count - 1 }).activeWrite ≠ some hd
        exact deadWrite_process _ hd h1 h2
      · rw [if_neg hm]
        exact h2
  | releaseUpgradeable hd2 =>
      show (s.releaseUpgradeable hd2).1.activeWrite ≠ some hd
      unfold releaseUpgradeable
      rcases Decidable.em (s.upgradeable = some hd2) with hm | hm
      · rw [if_pos hm]
        show (processLockRequests
          { s with count := if s.count = -1 then 0 else s.count - 1,
                   upgraded := none, upgradeable := none }).activeWrite ≠ some hd
        exact deadWrite_process _ hd h1 h2
      · rw [if_neg hm]
        exact h2
  | releaseUpgrade hd2 =>
      show (s.releaseUpgrade hd2).1.activeWrite ≠ some hd
      unfold releaseUpgrade
      rcases Decidable.em (s.upgraded = some hd2) with hm | hm
      · rw [if_pos hm]
        show (processLockRequests
          { s with upgraded := none, count := 1 }).activeWrite ≠ some hd
        exact deadWrite_process _ hd h1 h2
      · rw [if_neg hm]
        exact h2
  | releaseWrite hd2 =>
      show (s.releaseWrite hd2).1.activeWrite ≠ some hd
      unfold releaseWrite
      rcases Decidable.em (s.activeWrite = some hd2) with hm | hm
      · rw [if_pos hm]
        show (processLockRequests
          { s with activeWrite := none, count := 0 }).activeWrite ≠ some hd
        exact deadWrite_process _ hd h1 (by simp)
      · rw [if_neg hm]
        exact h2
  | cancel w =>
      show (s.cancel w).1.activeWrite ≠ some hd
      unfold cancel
      rcases Decidable.em (w ∈ s.readersQ ∨ w ∈ s.upgradeablesQ ∨
          w ∈ s.upgradesQ ∨ w ∈ s.writersQ) with hm | hm
      · rw [if_pos hm]
        exact h2
      · rw [if_neg hm]
        exact h2

theorem deadWrite_run (bs : List Action) (s : RWState) (hd : Nat)
    (h1 : hd < s.nextId) (h2 : s.activeWrite ≠ some hd) :
    hd < (s.run bs).nextId ∧ (s.run bs).activeWrite ≠ some hd := by
  induction bs generalizing s with
  | nil => exact ⟨h1, h2⟩
  | cons b rest ih =>
      obtain ⟨g1, g2⟩ := deadWrite_apply s b hd h1 h2
      exact ih _ g1 g2

theorem liveWrite_run (bs : List Action) (s : RWState) (hd : Nat)
    (hinv : Inv s) (hw : s.activeWrite = some hd)
    (hall : ∀ a ∈ bs, a ≠ Action.releaseWrite hd) :
    (s.run bs).activeWrite = some hd := by
  induction bs generalizing s with
  | nil => exact hw
  | cons b rest ih =>
      exact ih _ (inv_apply s b hinv)
        (liveWrite_apply s b hd hinv hw (hall b (List.mem_cons_self b rest)))
        (fun a ha => hall a (List.mem_cons_of_mem b ha))

theorem read_granted (s : RWState) (hd : Nat)
    (h : s.read.2 = Outcome.granted hd) :
    hd = s.nextId ∧ s.read.1 = (takeReadLock s).1 := by
  unfold read at *
  rcases Decidable.em (canTakeReadLock s) with hc | hc
  · rw [if_pos hc] at h ⊢
    dsimp only at h
    injection h with heq
    exact ⟨heq.symm, rfl⟩
  · rw [if_neg hc] at h
    dsimp only at h
    exact Outcome.noConfusion h

theorem write_granted (s : RWState) (hd : Nat)
    (h : s.write.2 = Outcome.granted hd) :
    hd = s.nextId ∧ s.write.1 = (takeWriteLock s).1 := by
  unfold write at *
  rcases Decidable.em (canTakeWriteLock s) with hc | hc
  · rw [if_pos hc] at h ⊢
    dsimp only at h
    injection h with heq
    exact ⟨heq.symm, rfl⟩
  · rw [if_neg hc] at h
    dsimp only at h
    exact Outcome.noConfusion h

theorem releaseRead_mem (s : RWState) (hd : Nat)
    (h : (s.releaseRead hd).2 = Outcome.released) : hd ∈ s.activeReads := by
  rcases Decidable.em (hd ∈ s.activeReads) with hm | hm
  · exact hm
  · rw [releaseRead_missE s hd hm] at h
    exact Outcome.noConfusion h

theorem releaseWrite_some (s : RWState) (hd : Nat)
    (h : (s.releaseWrite hd).2 = Outcome.released) :
    s.activeWrite = some hd := by
  rcases Decidable.em (s.activeWrite = some hd) with hm | hm
  · exact hm
  · rw [releaseWrite_missE s hd hm] at h
    exact Outcome.noConfusion h

/-- Claim C6: for every successfully acquired read or write handle,
the first call to release succeeds (also after any interleaved events
that do not release that same handle), and after a successful release
every subsequent release call on the same handle, however many events
later, raises the lock-already-released error. -/
theorem C6_release_once (as bs : List Action) (hd : Nat) :
    ((reach as).read.2 = Outcome.granted hd →
      (∀ a ∈ bs, a ≠ Action.releaseRead hd) →
      (((reach as).read.1.run bs).releaseRead hd).2 = Outcome.released) ∧
    (((reach as).releaseRead hd).2 = Outcome.released →
      ((((reach as).releaseRead hd).1.run bs).releaseRead hd).2 =
        Outcome.lockError) ∧
    ((reach as).write.2 = Outcome.granted hd →
      (∀ a ∈ bs, a ≠ Action.releaseWrite hd) →
      (((reach as).write.1.run bs).releaseWrite hd).2 = Outcome.released) ∧
    (((reach as).releaseWrite hd).2 = Outcome.released →
      ((((reach as).releaseWrite hd).1.run bs).releaseWrite hd).2 =
        Outcome.lockError) := by
  have hinv := inv_reachable as
  refine ⟨?_, ?_, ?_, ?_⟩
  · intro hg hall
    obtain ⟨heq, hst⟩ := read_granted _ hd hg
    have hmem : hd ∈ (reach as).read.1.activeReads := by
      rw [hst]
      simp only [takeReadLock]
      exact List.mem_append_right _ (by simp [heq])
    have hrun := liveRead_run bs _ hd hmem hall
    rw [releaseRead_hit _ hd hrun]
  · intro hr
    have hmem := releaseRead_mem _ hd hr
    have hfr : hd < (reach as).nextId :=
      (fr_parts _ hinv.2.2.2.2.2.2.2.2).1 hd hmem
    have hnodup : (reach as).activeReads.Nodup := hinv.2.2.2.1
    have hdead1 : hd < ((reach as).releaseRead hd).1.nextId ∧
        hd ∉ ((reach as).releaseRead hd).1.activeReads := by
      rw [releaseRead_hit _ hd hmem]
      constructor
      · show hd < (processLockRequests
          { reach as with activeReads := (reach as).activeReads.erase hd,
                          count := (reach as).count - 1 }).nextId
        exact lt_of_lt_of_le hfr (process_nextId_le
          { reach as with activeReads := (reach as).activeReads.erase hd,
                          count := (reach as).count - 1 })
      · show hd ∉ (processLockRequests
          { reach as with activeReads := (reach as).activeReads.erase hd,
                          count := (reach as).count - 1 }).activeReads
        exact dead_notmem_process _ hd hfr hnodup.not_mem_erase
    obtain ⟨g1, g2⟩ := deadRead_run bs _ hd hdead1.1 hdead1.2
    rw [releaseRead_missE _ hd g2]
  · intro hg hall
    obtain ⟨heq, hst⟩ := write_granted _ hd hg
    have hinvW : Inv (reach as).write.1 := inv_apply (reach as) Action.write hinv
    have haw : (reach as).write.1.activeWrite = some hd := by
      rw [hst]
      simp [takeWriteLock, heq]
    have hrun := liveWrite_run bs _ hd hinvW haw hall
    rw [releaseWrite_hit _ hd hrun]
  · intro hr
    have hsome := releaseWrite_some _ hd hr
    have hfr : hd < (reach as).nextId :=
      (fr_parts _ hinv.2.2.2.2.2.2.2.2).2.2.2.2.2.2.2 hd hsome
    have hdead1 : hd < ((reach as).releaseWrite hd).1.nextId ∧
        ((reach as).releaseWrite hd).1.activeWrite ≠ some hd := by
      rw [releaseWrite_hit _ hd hsome]
      constructor
      · show hd < (processLockRequests
          { reach as with activeWrite := none, count := 0 }).nextId
        exact lt_of_lt_of_le hfr (process_nextId_le
          { reach as with activeWrite := none, count := 0 })
      · show (processLockRequests
          { reach as with activeWrite := none, count := 0 }).activeWrite ≠
            some hd
        exact deadWrite_process _ hd hfr (by simp)
    obtain ⟨g1, g2⟩ := deadWrite_run bs _ hd hdead1.1 hdead1.2
    rw [releaseWrite_missE _ hd g2]

/-- Witness for C6: an immediately granted read handle releases once
and errors on the second release; likewise for a write handle. -/
theorem C6_release_once_witness :
    ((reach []).read.2 = Outcome.granted 0 ∧
      (((reach []).read.1.run []).releaseRead 0).2 = Outcome.released) ∧
    (((reach [Action.read]).releaseRead 0).2 = Outcome.released ∧
      ((((reach [Action.read]).releaseRead 0).1.run []).releaseRead 0).2 =
        Outcome.lockError) ∧
    ((reach []).write.2 = Outcome.granted 0 ∧
      (((reach []).write.1.run []).releaseWrite 0).2 = Outcome.released) ∧
    (((reach [Action.write]).releaseWrite 0).2 = Outcome.released ∧
      ((((reach [Action.write]).releaseWrite 0).1.run []).releaseWrite 0).2 =
        Outcome.lockError) :=
  ⟨⟨by decide, (C6_release_once [] [] 0).1 (by decide)
      (fun a ha => absurd ha (List.not_mem_nil a))⟩,
   ⟨by decide, (C6_release_once [Action.read] [] 0).2.1 (by decide)⟩,
   ⟨by decide, (C6_release_once [] [] 0).2.2.1 (by decide)
      (fun a ha => absurd ha (List.not_mem_nil a))⟩,
   ⟨by decide, (C6_release_once [Action.write] [] 0).2.2.2 (by decide)⟩⟩

end RWState

end Prex
